import Mathlib

set_option maxHeartbeats 1000000

/-!
Shallow embedding of `csim.c`, an LRU cache simulator that replays memory
access traces and counts hits, misses and evictions.  Machine integers are
modelled as `Nat`: addresses are 64-bit (`addr < 2^64` appears as a
hypothesis where it matters) and the C `int` sentinel `INT_MAX` used by the
eviction scan is kept explicit.
-/

namespace CSim

/-- One cache line (`cache_line_t` in the source): validity flag, tag and the
LRU recency stamp `count`.  The C source stores `valid` as the characters
'0'/'1'; it is modelled as `Bool`. -/
structure CacheLine where
  valid : Bool
  tag : Nat
  count : Nat
  deriving DecidableEq, Repr

/-- Cache geometry: `b` block-offset bits, `s` set-index bits, `E` lines per
set (the globals `b`, `s`, `E` of the source). -/
structure Geometry where
  b : Nat
  s : Nat
  E : Nat
  deriving DecidableEq, Repr

/-- The C `INT_MAX` sentinel used to initialize `minCount` in `access_data`. -/
def INT_MAX : Nat := 2147483647

/-- The mutable globals of the simulator: the cache (an `S`-element array of
`E`-line sets), the three statistics counters and the LRU clock `counter`
(initialized to 1 in the source). -/
structure SimState where
  cache : List (List CacheLine)
  hit_cnt : Nat
  miss_cnt : Nat
  evict_cnt : Nat
  counter : Nat
  deriving DecidableEq, Repr

/-- A freshly allocated line: `valid = '0'`, `tag = 0`, `count = 0`. -/
def initLine : CacheLine := ⟨false, 0, 0⟩

/-- `init_cache`: allocates `S = 2^s` sets of `E` zero-initialized lines each;
the statistics counters start at 0 and the LRU clock at 1. -/
def init_cache (g : Geometry) : SimState :=
  { cache := List.replicate (2 ^ g.s) (List.replicate g.E initLine)
    hit_cnt := 0
    miss_cnt := 0
    evict_cnt := 0
    counter := 1 }

/-- `sBitMask = ((mem_addr_t)1 << s) - 1` from `access_data`. -/
def sBitMask (g : Geometry) : Nat := (1 <<< g.s) - 1

/-- `tBitMask = ((mem_addr_t)1 << (64-b-s)) - 1` from `access_data`. -/
def tBitMask (g : Geometry) : Nat := (1 <<< (64 - g.b - g.s)) - 1

/-- `set = (addr >> b) & sBitMask` from `access_data`. -/
def setOf (g : Geometry) (addr : Nat) : Nat := (addr >>> g.b) &&& sBitMask g

/-- `tag = (addr >> (b+s)) & tBitMask` from `access_data`. -/
def tagOf (g : Geometry) (addr : Nat) : Nat :=
  (addr >>> (g.b + g.s)) &&& tBitMask g

/-- The first loop of `access_data`: index of the first line whose tag matches
and whose valid flag is set (`cache[set][line].tag == tag && valid == '1'`). -/
def hitIdx (tag : Nat) : List CacheLine → Option Nat
  | [] => none
  | l :: rest =>
      if l.tag = tag ∧ l.valid = true then some 0
      else Option.map (· + 1) (hitIdx tag rest)

/-- The second loop of `access_data`: walks the set carrying the running
minimum `minCount` and the candidate `evictLine`; breaks with a free line as
soon as an invalid line is found.  Returns `(freeLine, evictLine)`. -/
def scanLoop : List CacheLine → Nat → Nat → Option Nat → Option Nat × Option Nat
  | [], _, _, evictLine => (none, evictLine)
  | l :: rest, idx, minCount, evictLine =>
      if l.valid = false then (some idx, evictLine)
      else if l.count < minCount then scanLoop rest (idx + 1) l.count (some idx)
      else scanLoop rest (idx + 1) minCount evictLine

/-- In-place update of the element at one index of a list (models a C array
store; out-of-range indices leave the list unchanged). -/
def modifyIdx {α : Type} (f : α → α) : Nat → List α → List α
  | _, [] => []
  | 0, x :: rest => f x :: rest
  | n + 1, x :: rest => x :: modifyIdx f n rest

/-- The lines of the set at index `setIdx` (the C expression `cache[set]`). -/
def linesAt (st : SimState) (setIdx : Nat) : List CacheLine :=
  st.cache.getD setIdx []

/-- A line after a miss fill: `valid = '1'`, the target tag, and the
pre-increment clock value. -/
def fillLine (tag cnt : Nat) : CacheLine := ⟨true, tag, cnt⟩

/-- Result of one access, as observable from the counter updates of
`access_data`: a hit, or a miss with or without an eviction. -/
inductive Outcome where
  | Hit : Outcome
  | Miss : Bool → Outcome
  deriving DecidableEq, Repr

/-- `access_data` of the source, with the outcome made explicit.  On a hit
only the matching line's `count` is refreshed; on a miss the first free line
(if any) or else the minimum-`count` line is overwritten with
`valid='1', tag, count=counter`, and `counter` advances. -/
def access (g : Geometry) (st : SimState) (addr : Nat) : SimState × Outcome :=
  match hitIdx (tagOf g addr) (linesAt st (setOf g addr)) with
  | some i =>
      ({ st with
          hit_cnt := st.hit_cnt + 1
          cache := modifyIdx
            (fun ls => modifyIdx (fun l => { l with count := st.counter }) i ls)
            (setOf g addr) st.cache
          counter := st.counter + 1 }, Outcome.Hit)
  | none =>
      match scanLoop (linesAt st (setOf g addr)) 0 INT_MAX none with
      | (some f, _) =>
          ({ st with
              miss_cnt := st.miss_cnt + 1
              cache := modifyIdx
                (fun ls => modifyIdx (fun _ => fillLine (tagOf g addr) st.counter) f ls)
                (setOf g addr) st.cache
              counter := st.counter + 1 }, Outcome.Miss false)
      | (none, some v) =>
          ({ st with
              miss_cnt := st.miss_cnt + 1
              evict_cnt := st.evict_cnt + 1
              cache := modifyIdx
                (fun ls => modifyIdx (fun _ => fillLine (tagOf g addr) st.counter) v ls)
                (setOf g addr) st.cache
              counter := st.counter + 1 }, Outcome.Miss true)
      | (none, none) =>
          ({ st with miss_cnt := st.miss_cnt + 1 }, Outcome.Miss false)

/-- `access_data`: the state effect of one access. -/
def access_data (g : Geometry) (st : SimState) (addr : Nat) : SimState :=
  (access g st addr).1

/-- Operation kind of a trace record: `L`, `S`, `M`, or anything else (e.g.
the ignored instruction fetches `I`). -/
inductive OpKind where
  | load : OpKind
  | store : OpKind
  | modify : OpKind
  | other : OpKind
  deriving DecidableEq, Repr

/-- One parsed trace record: an operation kind and a 64-bit address. -/
structure TraceRec where
  kind : OpKind
  addr : Nat
  deriving DecidableEq, Repr

/-- Number of `access_data` calls a record triggers in `replay_trace`. -/
def numAccesses : OpKind → Nat
  | .load => 1
  | .store => 1
  | .modify => 2
  | .other => 0

/-- The dispatch of one record in `replay_trace`'s loop body: `M` issues two
`access_data` calls, `L` and `S` one each, anything else none. -/
def replayRecord (g : Geometry) (st : SimState) (r : TraceRec) : SimState :=
  match r.kind with
  | .modify => access_data g (access_data g st r.addr) r.addr
  | .load => access_data g st r.addr
  | .store => access_data g st r.addr
  | .other => st

/-- `replay_trace`: replays a parsed record stream against the cache. -/
def replay_trace (g : Geometry) (st : SimState) : List TraceRec → SimState
  | [] => st
  | r :: rest => replay_trace g (replayRecord g st r) rest

/-- Replays a bare list of addresses, one `access_data` call each (used to
state per-access invariants). -/
def runAccesses (g : Geometry) (st : SimState) : List Nat → SimState
  | [] => st
  | a :: rest => runAccesses g (access_data g st a) rest

/-! Helper lemmas about the embedded operations. -/

theorem length_modifyIdx {α : Type} (f : α → α) (i : Nat) (xs : List α) :
    (modifyIdx f i xs).length = xs.length := by
  induction xs generalizing i with
  | nil => cases i <;> simp [modifyIdx]
  | cons x rest ih =>
      cases i with
      | zero => simp [modifyIdx]
      | succ n => simp [modifyIdx, ih]

theorem getElem?_modifyIdx_ne {α : Type} (f : α → α) :
    ∀ (i j : Nat) (xs : List α), j ≠ i → (modifyIdx f i xs)[j]? = xs[j]?
  | _, _, [], _ => by simp [modifyIdx]
  | 0, j, x :: rest, h => by
      match j, h with
      | n + 1, _ => simp [modifyIdx]
  | i + 1, 0, x :: rest, h => by simp [modifyIdx]
  | i + 1, j + 1, x :: rest, h => by
      have h' : j ≠ i := by omega
      simp [modifyIdx, getElem?_modifyIdx_ne f i j rest h']

theorem getElem?_modifyIdx_self {α : Type} (f : α → α) :
    ∀ (i : Nat) (xs : List α), (modifyIdx f i xs)[i]? = (xs[i]?).map f
  | _, [] => by simp [modifyIdx]
  | 0, x :: rest => by simp [modifyIdx]
  | i + 1, x :: rest => by simp [modifyIdx, getElem?_modifyIdx_self f i rest]

theorem sBitMask_eq (g : Geometry) : sBitMask g = 2 ^ g.s - 1 := by
  simp [sBitMask, Nat.shiftLeft_eq]

theorem tBitMask_eq (g : Geometry) : tBitMask g = 2 ^ (64 - g.b - g.s) - 1 := by
  simp [tBitMask, Nat.shiftLeft_eq]

theorem setOf_eq_mod (g : Geometry) (addr : Nat) :
    setOf g addr = (addr / 2 ^ g.b) % 2 ^ g.s := by
  rw [setOf, sBitMask_eq, Nat.and_pow_two_sub_one_eq_mod, Nat.shiftRight_eq_div_pow]

theorem tagOf_eq_mod (g : Geometry) (addr : Nat) :
    tagOf g addr = (addr / 2 ^ (g.b + g.s)) % 2 ^ (64 - g.b - g.s) := by
  rw [tagOf, tBitMask_eq, Nat.and_pow_two_sub_one_eq_mod, Nat.shiftRight_eq_div_pow]

theorem setOf_lt (g : Geometry) (addr : Nat) : setOf g addr < 2 ^ g.s := by
  rw [setOf_eq_mod]
  exact Nat.mod_lt _ (Nat.pos_pow_of_pos _ (by omega))

theorem access_of_hit (g : Geometry) (st : SimState) (addr : Nat) (i : Nat)
    (h : hitIdx (tagOf g addr) (linesAt st (setOf g addr)) = some i) :
    access g st addr =
      ({ st with
          hit_cnt := st.hit_cnt + 1
          cache := modifyIdx
            (fun ls => modifyIdx (fun l => { l with count := st.counter }) i ls)
            (setOf g addr) st.cache
          counter := st.counter + 1 }, Outcome.Hit) := by
  simp only [access, h]

theorem access_of_free (g : Geometry) (st : SimState) (addr : Nat) (f : Nat)
    (e : Option Nat)
    (h0 : hitIdx (tagOf g addr) (linesAt st (setOf g addr)) = none)
    (h1 : scanLoop (linesAt st (setOf g addr)) 0 INT_MAX none = (some f, e)) :
    access g st addr =
      ({ st with
          miss_cnt := st.miss_cnt + 1
          cache := modifyIdx
            (fun ls => modifyIdx (fun _ => fillLine (tagOf g addr) st.counter) f ls)
            (setOf g addr) st.cache
          counter := st.counter + 1 }, Outcome.Miss false) := by
  simp only [access, h0, h1]

theorem access_of_evict (g : Geometry) (st : SimState) (addr : Nat) (v : Nat)
    (h0 : hitIdx (tagOf g addr) (linesAt st (setOf g addr)) = none)
    (h1 : scanLoop (linesAt st (setOf g addr)) 0 INT_MAX none = (none, some v)) :
    access g st addr =
      ({ st with
          miss_cnt := st.miss_cnt + 1
          evict_cnt := st.evict_cnt + 1
          cache := modifyIdx
            (fun ls => modifyIdx (fun _ => fillLine (tagOf g addr) st.counter) v ls)
            (setOf g addr) st.cache
          counter := st.counter + 1 }, Outcome.Miss true) := by
  simp only [access, h0, h1]

theorem access_of_stuck (g : Geometry) (st : SimState) (addr : Nat)
    (h0 : hitIdx (tagOf g addr) (linesAt st (setOf g addr)) = none)
    (h1 : scanLoop (linesAt st (setOf g addr)) 0 INT_MAX none = (none, none)) :
    access g st addr =
      ({ st with miss_cnt := st.miss_cnt + 1 }, Outcome.Miss false) := by
  simp only [access, h0, h1]

theorem hitIdx_none_iff (tag : Nat) :
    ∀ xs : List CacheLine,
      hitIdx tag xs = none ↔ ∀ l ∈ xs, ¬(l.tag = tag ∧ l.valid = true)
  | [] => by simp [hitIdx]
  | l :: rest => by
      rw [hitIdx]
      by_cases h : l.tag = tag ∧ l.valid = true
      · rw [if_pos h]
        constructor
        · intro hc
          cases hc
        · intro hall
          exact absurd h (hall l (List.mem_cons_self l rest))
      · rw [if_neg h]
        cases hr : hitIdx tag rest with
        | some k =>
            constructor
            · intro hc
              simp at hc
            · intro hall
              have := (hitIdx_none_iff tag rest).mpr
                (fun l' hl' => hall l' (List.mem_cons_of_mem l hl'))
              rw [hr] at this
              cases this
        | none =>
            simp only [Option.map_none']
            constructor
            · intro _ l' hl'
              rcases List.mem_cons.mp hl' with hl' | hl'
              · subst hl'; exact h
              · exact (hitIdx_none_iff tag rest).mp hr l' hl'
            · intro _
              trivial

theorem hitIdx_spec (tag : Nat) :
    ∀ (xs : List CacheLine) (i : Nat), hitIdx tag xs = some i →
      ∃ l, xs[i]? = some l ∧ l.tag = tag ∧ l.valid = true ∧
        ∀ j, j < i → ∀ lj, xs[j]? = some lj → ¬(lj.tag = tag ∧ lj.valid = true)
  | [], i => by simp [hitIdx]
  | l :: rest, i => by
      rw [hitIdx]
      by_cases h : l.tag = tag ∧ l.valid = true
      · rw [if_pos h]
        intro hi
        have hi0 : i = 0 := by
          have := Option.some.inj hi
          omega
        subst hi0
        refine ⟨l, by simp, h.1, h.2, ?_⟩
        intro j hj lj hlj
        exact absurd hj (Nat.not_lt_zero j)
      · rw [if_neg h]
        intro hi
        cases hr : hitIdx tag rest with
        | none => rw [hr] at hi; simp at hi
        | some k =>
            rw [hr] at hi
            simp only [Option.map_some'] at hi
            have hik : i = k + 1 := (Option.some.inj hi).symm
            subst hik
            obtain ⟨lw, hw, hw1, hw2, hw3⟩ := hitIdx_spec tag rest k hr
            refine ⟨lw, by simpa using hw, hw1, hw2, ?_⟩
            intro j hj lj hlj
            match j with
            | 0 =>
                simp at hlj
                subst hlj
                exact h
            | j' + 1 =>
                simp at hlj
                exact hw3 j' (by omega) lj hlj

theorem hitIdx_lt_length (tag : Nat) (xs : List CacheLine) (i : Nat)
    (h : hitIdx tag xs = some i) : i < xs.length := by
  obtain ⟨l, hl, -⟩ := hitIdx_spec tag xs i h
  exact (List.getElem?_eq_some.mp hl).1

theorem hitIdx_isSome_of_mem (tag : Nat) (xs : List CacheLine) (l : CacheLine)
    (hmem : l ∈ xs) (htag : l.tag = tag) (hval : l.valid = true) :
    ∃ i, hitIdx tag xs = some i := by
  cases h : hitIdx tag xs with
  | none => exact absurd ⟨htag, hval⟩ ((hitIdx_none_iff tag xs).mp h l hmem)
  | some i => exact ⟨i, rfl⟩

theorem scanLoop_fst_of_first_invalid :
    ∀ (xs : List CacheLine) (idx m : Nat) (e : Option Nat) (f : Nat)
      (lf : CacheLine), xs[f]? = some lf → lf.valid = false →
      (∀ (j : Nat) (lj : CacheLine), j < f → xs[j]? = some lj → lj.valid = true) →
      (scanLoop xs idx m e).1 = some (idx + f)
  | [], idx, m, e, f, lf => by simp
  | x :: rest, idx, m, e, f, lf => by
      intro hf hlf hpre
      match f with
      | 0 =>
          simp only [List.getElem?_cons_zero] at hf
          have hx : x = lf := Option.some.inj hf
          subst hx
          rw [scanLoop, if_pos hlf]
          simp
      | f' + 1 =>
          have hx : x.valid = true := by
            have := hpre 0 x (by omega) (by simp)
            exact this
          rw [scanLoop, if_neg (by simp [hx])]
          have hrec : ∀ m' e', (scanLoop rest (idx + 1) m' e').1 = some (idx + 1 + f') := by
            intro m' e'
            exact scanLoop_fst_of_first_invalid rest (idx + 1) m' e' f' lf
              (by simpa using hf) hlf
              (fun j lj hj hlj => hpre (j + 1) lj (by omega) (by simpa using hlj))
          by_cases hc : x.count < m
          · rw [if_pos hc]
            rw [hrec x.count (some idx)]
            congr 1
            omega
          · rw [if_neg hc]
            rw [hrec m e]
            congr 1
            omega

theorem scanLoop_no_improve :
    ∀ (xs : List CacheLine) (idx m : Nat) (e : Option Nat),
      (∀ (j : Nat) (lj : CacheLine), xs[j]? = some lj → lj.valid = true) →
      (∀ (j : Nat) (lj : CacheLine), xs[j]? = some lj → ¬(lj.count < m)) →
      scanLoop xs idx m e = (none, e)
  | [], idx, m, e => by
      intro _ _
      rfl
  | x :: rest, idx, m, e => by
      intro hval hcnt
      have hx : x.valid = true := hval 0 x (by simp)
      rw [scanLoop, if_neg (by simp [hx]), if_neg (hcnt 0 x (by simp))]
      exact scanLoop_no_improve rest (idx + 1) m e
        (fun j lj hlj => hval (j + 1) lj (by simpa using hlj))
        (fun j lj hlj => hcnt (j + 1) lj (by simpa using hlj))

theorem scanLoop_of_strict_min :
    ∀ (xs : List CacheLine) (idx m : Nat) (e : Option Nat) (v : Nat)
      (lv : CacheLine),
      (∀ (j : Nat) (lj : CacheLine), xs[j]? = some lj → lj.valid = true) →
      xs[v]? = some lv → lv.count < m →
      (∀ (j : Nat) (lj : CacheLine), xs[j]? = some lj → j ≠ v → lv.count < lj.count) →
      scanLoop xs idx m e = (none, some (idx + v))
  | [], idx, m, e, v, lv => by simp
  | x :: rest, idx, m, e, v, lv => by
      intro hval hv hlt hmin
      have hx : x.valid = true := hval 0 x (by simp)
      rw [scanLoop, if_neg (by simp [hx])]
      match v with
      | 0 =>
          simp only [List.getElem?_cons_zero] at hv
          have hxl : x = lv := Option.some.inj hv
          subst hxl
          rw [if_pos hlt]
          have := scanLoop_no_improve rest (idx + 1) x.count (some idx)
            (fun j lj hlj => hval (j + 1) lj (by simpa using hlj))
            (fun j lj hlj => by
              have := hmin (j + 1) lj (by simpa using hlj) (by omega)
              omega)
          rw [this]
          simp
      | v' + 1 =>
          have hxmin : lv.count < x.count := hmin 0 x (by simp) (by omega)
          have hrec : ∀ m' e', lv.count < m' →
              scanLoop rest (idx + 1) m' e' = (none, some (idx + 1 + v')) := by
            intro m' e' hm'
            exact scanLoop_of_strict_min rest (idx + 1) m' e' v' lv
              (fun j lj hlj => hval (j + 1) lj (by simpa using hlj))
              (by simpa using hv) hm'
              (fun j lj hlj hj => hmin (j + 1) lj (by simpa using hlj) (by omega))
          by_cases hc : x.count < m
          · rw [if_pos hc, hrec x.count (some idx) hxmin]
            rw [Prod.mk.injEq]
            refine ⟨rfl, ?_⟩
            congr 1
            omega
          · rw [if_neg hc, hrec m e hlt]
            rw [Prod.mk.injEq]
            refine ⟨rfl, ?_⟩
            congr 1
            omega

theorem scanLoop_fst_range :
    ∀ (xs : List CacheLine) (idx m : Nat) (e : Option Nat) (r : Nat),
      (scanLoop xs idx m e).1 = some r → ∃ t, t < xs.length ∧ r = idx + t
  | [], idx, m, e, r => by simp [scanLoop]
  | x :: rest, idx, m, e, r => by
      intro h
      by_cases hx : x.valid = false
      · rw [scanLoop, if_pos hx] at h
        exact ⟨0, by simp, by simpa using h.symm⟩
      · rw [scanLoop, if_neg hx] at h
        by_cases hc : x.count < m
        · rw [if_pos hc] at h
          obtain ⟨t, ht, hr⟩ := scanLoop_fst_range rest (idx + 1) x.count (some idx) r h
          exact ⟨t + 1, by simp; omega, by omega⟩
        · rw [if_neg hc] at h
          obtain ⟨t, ht, hr⟩ := scanLoop_fst_range rest (idx + 1) m e r h
          exact ⟨t + 1, by simp; omega, by omega⟩

theorem scanLoop_snd_acc :
    ∀ (xs : List CacheLine) (idx m r0 r : Nat),
      (scanLoop xs idx m (some r0)).2 = some r →
      r = r0 ∨ ∃ t, t < xs.length ∧ r = idx + t
  | [], idx, m, r0, r => by
      intro h
      simp [scanLoop] at h
      exact Or.inl h.symm
  | x :: rest, idx, m, r0, r => by
      intro h
      by_cases hx : x.valid = false
      · rw [scanLoop, if_pos hx] at h
        simp at h
        exact Or.inl h.symm
      · rw [scanLoop, if_neg hx] at h
        by_cases hc : x.count < m
        · rw [if_pos hc] at h
          rcases scanLoop_snd_acc rest (idx + 1) x.count idx r h with hr | ⟨t, ht, hr⟩
          · exact Or.inr ⟨0, by simp, by omega⟩
          · exact Or.inr ⟨t + 1, by simp; omega, by omega⟩
        · rw [if_neg hc] at h
          rcases scanLoop_snd_acc rest (idx + 1) m r0 r h with hr | ⟨t, ht, hr⟩
          · exact Or.inl hr
          · exact Or.inr ⟨t + 1, by simp; omega, by omega⟩

theorem scanLoop_snd_isSome :
    ∀ (xs : List CacheLine) (idx m r0 : Nat),
      ∃ r, (scanLoop xs idx m (some r0)).2 = some r
  | [], idx, m, r0 => ⟨r0, rfl⟩
  | x :: rest, idx, m, r0 => by
      by_cases hx : x.valid = false
      · rw [scanLoop, if_pos hx]
        exact ⟨r0, rfl⟩
      · rw [scanLoop, if_neg hx]
        by_cases hc : x.count < m
        · rw [if_pos hc]
          exact scanLoop_snd_isSome rest (idx + 1) x.count idx
        · rw [if_neg hc]
          exact scanLoop_snd_isSome rest (idx + 1) m r0

theorem scanLoop_snd_none_range :
    ∀ (xs : List CacheLine) (idx m r : Nat),
      (scanLoop xs idx m none).2 = some r → ∃ t, t < xs.length ∧ r = idx + t
  | [], idx, m, r => by simp [scanLoop]
  | x :: rest, idx, m, r => by
      intro h
      by_cases hx : x.valid = false
      · rw [scanLoop, if_pos hx] at h
        simp at h
      · rw [scanLoop, if_neg hx] at h
        by_cases hc : x.count < m
        · rw [if_pos hc] at h
          rcases scanLoop_snd_acc rest (idx + 1) x.count idx r h with hr | ⟨t, ht, hr⟩
          · exact ⟨0, by simp, by omega⟩
          · exact ⟨t + 1, by simp; omega, by omega⟩
        · rw [if_neg hc] at h
          obtain ⟨t, ht, hr⟩ := scanLoop_snd_none_range rest (idx + 1) m r h
          exact ⟨t + 1, by simp; omega, by omega⟩

theorem scanLoop_target :
    ∀ (xs : List CacheLine) (idx m : Nat) (e : Option Nat), xs ≠ [] →
      (∀ (j : Nat) (lj : CacheLine), xs[j]? = some lj → lj.valid = true → lj.count < m) →
      ∃ t, t < xs.length ∧
        ((scanLoop xs idx m e).1 = some (idx + t) ∨
          ((scanLoop xs idx m e).1 = none ∧
            (scanLoop xs idx m e).2 = some (idx + t)))
  | [], idx, m, e => by
      intro h _
      exact absurd rfl h
  | x :: rest, idx, m, e => by
      intro _ hbound
      by_cases hx : x.valid = false
      · refine ⟨0, by simp, Or.inl ?_⟩
        rw [scanLoop, if_pos hx]
        simp
      · have hxv : x.valid = true := by
          cases hv : x.valid
          · exact absurd hv hx
          · rfl
        have hxc : x.count < m := hbound 0 x (by simp) hxv
        rw [scanLoop, if_neg hx, if_pos hxc]
        cases hfst : (scanLoop rest (idx + 1) x.count (some idx)).1 with
        | some r =>
            obtain ⟨t, ht, hr⟩ :=
              scanLoop_fst_range rest (idx + 1) x.count (some idx) r hfst
            refine ⟨t + 1, by simp; omega, Or.inl ?_⟩
            rw [hr]
            congr 1
            omega
        | none =>
            obtain ⟨r, hsnd⟩ := scanLoop_snd_isSome rest (idx + 1) x.count idx
            rcases scanLoop_snd_acc rest (idx + 1) x.count idx r hsnd with hr | ⟨t, ht, hr⟩
            · refine ⟨0, by simp, Or.inr ⟨rfl, ?_⟩⟩
              rw [hsnd, hr]
              congr 1
            · refine ⟨t + 1, by simp; omega, Or.inr ⟨rfl, ?_⟩⟩
              rw [hsnd, hr]
              congr 1
              omega

theorem getD_eq_of_getElem? {α : Type} (xs : List α) (i : Nat) (x d : α)
    (h : xs[i]? = some x) : xs.getD i d = x := by
  simp [List.getD, h]

theorem linesAt_update (st : SimState) (F : List CacheLine → List CacheLine)
    (σ : Nat) (ls : List CacheLine) (h : st.cache[σ]? = some ls) :
    (modifyIdx F σ st.cache).getD σ [] = F ls := by
  have h1 := getElem?_modifyIdx_self F σ st.cache
  rw [h] at h1
  exact getD_eq_of_getElem? _ _ _ _ h1

/-! Counter accounting for a single access and for a whole replay. -/

theorem access_count_step (g : Geometry) (st : SimState) (addr : Nat) :
    (access_data g st addr).hit_cnt + (access_data g st addr).miss_cnt
        = st.hit_cnt + st.miss_cnt + 1 ∧
      st.hit_cnt ≤ (access_data g st addr).hit_cnt ∧
      st.miss_cnt ≤ (access_data g st addr).miss_cnt ∧
      st.evict_cnt ≤ (access_data g st addr).evict_cnt ∧
      (access_data g st addr).evict_cnt + st.miss_cnt
        ≤ st.evict_cnt + (access_data g st addr).miss_cnt := by
  unfold access_data access
  cases hh : hitIdx (tagOf g addr) (linesAt st (setOf g addr)) with
  | some i =>
      simp
      omega
  | none =>
      cases hsl : scanLoop (linesAt st (setOf g addr)) 0 INT_MAX none with
      | mk fst snd => cases fst <;> cases snd <;> simp <;> omega

theorem replay_append (g : Geometry) (st : SimState) :
    ∀ (tr1 tr2 : List TraceRec),
      replay_trace g st (tr1 ++ tr2) = replay_trace g (replay_trace g st tr1) tr2
  | [], tr2 => rfl
  | r :: rest, tr2 => by
      rw [List.cons_append, replay_trace, replay_trace]
      exact replay_append g (replayRecord g st r) rest tr2

theorem record_count_step (g : Geometry) (st : SimState) (r : TraceRec) :
    (replayRecord g st r).hit_cnt + (replayRecord g st r).miss_cnt
        = st.hit_cnt + st.miss_cnt + numAccesses r.kind ∧
      st.hit_cnt ≤ (replayRecord g st r).hit_cnt ∧
      st.miss_cnt ≤ (replayRecord g st r).miss_cnt ∧
      st.evict_cnt ≤ (replayRecord g st r).evict_cnt ∧
      (replayRecord g st r).evict_cnt + st.miss_cnt
        ≤ st.evict_cnt + (replayRecord g st r).miss_cnt := by
  rcases r with ⟨k, a⟩
  cases k with
  | load => simpa [replayRecord, numAccesses] using access_count_step g st a
  | store => simpa [replayRecord, numAccesses] using access_count_step g st a
  | modify =>
      have h1 := access_count_step g st a
      have h2 := access_count_step g (access_data g st a) a
      simp only [replayRecord, numAccesses]
      omega
  | other => simp [replayRecord, numAccesses]

theorem replay_count (g : Geometry) :
    ∀ (tr : List TraceRec) (st : SimState),
      (replay_trace g st tr).hit_cnt + (replay_trace g st tr).miss_cnt
          = st.hit_cnt + st.miss_cnt + (tr.map (fun r => numAccesses r.kind)).sum ∧
        st.hit_cnt ≤ (replay_trace g st tr).hit_cnt ∧
        st.miss_cnt ≤ (replay_trace g st tr).miss_cnt ∧
        st.evict_cnt ≤ (replay_trace g st tr).evict_cnt ∧
        (replay_trace g st tr).evict_cnt + st.miss_cnt
          ≤ st.evict_cnt + (replay_trace g st tr).miss_cnt
  | [], st => by simp [replay_trace]
  | r :: rest, st => by
      have h1 := record_count_step g st r
      have h2 := replay_count g rest (replayRecord g st r)
      rw [replay_trace]
      simp only [List.map_cons, List.sum_cons]
      omega

/-- C5: after replaying any finite trace, `hits + misses` equals the number of
`access_data` invocations derived from the stream (Load/Store 1 each, Modify
2, other kinds 0), `evictions ≤ misses`, all three counters start at 0, and
all three are monotonically non-decreasing over the run (every prefix's
counters are bounded by the full run's). -/
theorem replay_counter_accounting (g : Geometry) (tr : List TraceRec) :
    (init_cache g).hit_cnt = 0 ∧ (init_cache g).miss_cnt = 0 ∧
      (init_cache g).evict_cnt = 0 ∧
      (replay_trace g (init_cache g) tr).hit_cnt
          + (replay_trace g (init_cache g) tr).miss_cnt
        = (tr.map (fun r => numAccesses r.kind)).sum ∧
      (replay_trace g (init_cache g) tr).evict_cnt
        ≤ (replay_trace g (init_cache g) tr).miss_cnt ∧
      ∀ tr1 tr2, tr = tr1 ++ tr2 →
        (replay_trace g (init_cache g) tr1).hit_cnt
            ≤ (replay_trace g (init_cache g) tr).hit_cnt ∧
          (replay_trace g (init_cache g) tr1).miss_cnt
            ≤ (replay_trace g (init_cache g) tr).miss_cnt ∧
          (replay_trace g (init_cache g) tr1).evict_cnt
            ≤ (replay_trace g (init_cache g) tr).evict_cnt := by
  have h := replay_count g tr (init_cache g)
  refine ⟨rfl, rfl, rfl, ?_, ?_, ?_⟩
  · have : (init_cache g).hit_cnt = 0 := rfl
    have : (init_cache g).miss_cnt = 0 := rfl
    omega
  · have : (init_cache g).evict_cnt = 0 := rfl
    have : (init_cache g).miss_cnt = 0 := rfl
    omega
  · intro tr1 tr2 hsplit
    rw [hsplit, replay_append]
    have h2 := replay_count g tr2 (replay_trace g (init_cache g) tr1)
    exact ⟨h2.2.1, h2.2.2.1, h2.2.2.2.1⟩

theorem replay_counter_accounting_witness :
    (replay_trace ⟨1, 1, 1⟩ (init_cache ⟨1, 1, 1⟩)
          [⟨OpKind.load, 0⟩, ⟨OpKind.modify, 8⟩]).hit_cnt
        + (replay_trace ⟨1, 1, 1⟩ (init_cache ⟨1, 1, 1⟩)
          [⟨OpKind.load, 0⟩, ⟨OpKind.modify, 8⟩]).miss_cnt = 3 ∧
      (replay_trace ⟨1, 1, 1⟩ (init_cache ⟨1, 1, 1⟩)
          [⟨OpKind.load, 0⟩]).evict_cnt
        ≤ (replay_trace ⟨1, 1, 1⟩ (init_cache ⟨1, 1, 1⟩)
          [⟨OpKind.load, 0⟩, ⟨OpKind.modify, 8⟩]).evict_cnt := by
  have h := replay_counter_accounting ⟨1, 1, 1⟩
    [⟨OpKind.load, 0⟩, ⟨OpKind.modify, 8⟩]
  refine ⟨?_, ((h.2.2.2.2.2) [⟨OpKind.load, 0⟩] [⟨OpKind.modify, 8⟩] rfl).2.2⟩
  rw [h.2.2.2.1]
  decide

/-- C4: for every 64-bit address and geometry with positive `b`, `s` and
`b + s < 64`, the decoded fields recombine to the original address:
`(tag << (b+s)) | (set << b) | (addr & ((1 << b) - 1)) = addr`. -/
theorem decode_recombines (g : Geometry) (addr : Nat)
    (haddr : addr < 2 ^ 64) (hb : 0 < g.b) (hs : 0 < g.s)
    (hbs : g.b + g.s < 64) :
    (tagOf g addr <<< (g.b + g.s)) ||| (setOf g addr <<< g.b)
        ||| (addr &&& ((1 <<< g.b) - 1)) = addr := by
  have h2b : (0 : Nat) < 2 ^ g.b := Nat.two_pow_pos g.b
  have h2s : (0 : Nat) < 2 ^ g.s := Nat.two_pow_pos g.s
  have hmask : addr &&& ((1 <<< g.b) - 1) = addr % 2 ^ g.b := by
    rw [Nat.shiftLeft_eq, one_mul, Nat.and_pow_two_sub_one_eq_mod]
  have hsetlt := setOf_lt g addr
  have hsetmul : setOf g addr * 2 ^ g.b < 2 ^ (g.b + g.s) := by
    rw [pow_add, Nat.mul_comm (2 ^ g.b) (2 ^ g.s)]
    exact mul_lt_mul_of_pos_right hsetlt h2b
  have hmodlt : addr % 2 ^ g.b < 2 ^ g.b := Nat.mod_lt _ h2b
  have hor1 : tagOf g addr <<< (g.b + g.s) ||| setOf g addr <<< g.b
      = 2 ^ (g.b + g.s) * tagOf g addr + setOf g addr * 2 ^ g.b := by
    rw [Nat.shiftLeft_eq, Nat.shiftLeft_eq, Nat.mul_comm (tagOf g addr)]
    exact (Nat.mul_add_lt_is_or hsetmul (tagOf g addr)).symm
  have hfac : 2 ^ (g.b + g.s) * tagOf g addr + setOf g addr * 2 ^ g.b
      = 2 ^ g.b * (tagOf g addr * 2 ^ g.s + setOf g addr) := by
    rw [pow_add]
    ring
  have hor2 : 2 ^ g.b * (tagOf g addr * 2 ^ g.s + setOf g addr) ||| addr % 2 ^ g.b
      = 2 ^ g.b * (tagOf g addr * 2 ^ g.s + setOf g addr) + addr % 2 ^ g.b :=
    (Nat.mul_add_lt_is_or hmodlt _).symm
  rw [hmask, hor1, hfac, hor2]
  have htagdiv : addr / 2 ^ (g.b + g.s) < 2 ^ (64 - g.b - g.s) := by
    apply Nat.div_lt_of_lt_mul
    have hpp : 2 ^ (g.b + g.s) * 2 ^ (64 - g.b - g.s) = 2 ^ 64 := by
      rw [← pow_add]
      congr 1
      omega
    rw [hpp]
    exact haddr
  have htag2 : tagOf g addr = addr / 2 ^ g.b / 2 ^ g.s := by
    rw [tagOf_eq_mod, Nat.mod_eq_of_lt htagdiv, Nat.div_div_eq_div_mul, ← pow_add]
  rw [htag2, setOf_eq_mod, Nat.div_add_mod' (addr / 2 ^ g.b) (2 ^ g.s),
    Nat.div_add_mod addr (2 ^ g.b)]

theorem decode_recombines_witness :
    (tagOf ⟨4, 4, 1⟩ 3735928559 <<< (4 + 4)) ||| (setOf ⟨4, 4, 1⟩ 3735928559 <<< 4)
        ||| (3735928559 &&& ((1 <<< 4) - 1)) = 3735928559 :=
  decode_recombines ⟨4, 4, 1⟩ 3735928559 (by decide) (by decide) (by decide)
    (by decide)

/-- C9: the access engine has no failure path: for every address and valid
geometry the computed set index is below the set count `2^s`, every line
index produced by the hit scan or the miss scan is below the set's line
count, and every access results in a `Hit` or a `Miss` outcome. -/
theorem access_in_bounds_total (g : Geometry) (st : SimState) (addr : Nat)
    (hb : 0 < g.b) (hs : 0 < g.s) (hE : 0 < g.E) (hbs : g.b + g.s < 64) :
    setOf g addr < 2 ^ g.s ∧
      (∀ i, hitIdx (tagOf g addr) (linesAt st (setOf g addr)) = some i →
        i < (linesAt st (setOf g addr)).length) ∧
      (∀ r, (scanLoop (linesAt st (setOf g addr)) 0 INT_MAX none).1 = some r →
        r < (linesAt st (setOf g addr)).length) ∧
      (∀ r, (scanLoop (linesAt st (setOf g addr)) 0 INT_MAX none).1 = none →
        (scanLoop (linesAt st (setOf g addr)) 0 INT_MAX none).2 = some r →
        r < (linesAt st (setOf g addr)).length) ∧
      ((access g st addr).2 = Outcome.Hit ∨
        ∃ ev, (access g st addr).2 = Outcome.Miss ev) := by
  refine ⟨setOf_lt g addr, ?_, ?_, ?_, ?_⟩
  · intro i h
    exact hitIdx_lt_length _ _ i h
  · intro r h
    obtain ⟨t, ht, hr⟩ := scanLoop_fst_range _ 0 INT_MAX none r h
    omega
  · intro r _ h
    obtain ⟨t, ht, hr⟩ := scanLoop_snd_none_range _ 0 INT_MAX r h
    omega
  · unfold access
    cases hh : hitIdx (tagOf g addr) (linesAt st (setOf g addr)) with
    | some i => simp
    | none =>
        cases hsl : scanLoop (linesAt st (setOf g addr)) 0 INT_MAX none with
        | mk fst snd => cases fst <;> cases snd <;> simp

theorem access_in_bounds_total_witness :
    setOf ⟨1, 1, 1⟩ 8 < 2 ^ 1 ∧
      (∀ i, hitIdx (tagOf ⟨1, 1, 1⟩ 8) (linesAt (init_cache ⟨1, 1, 1⟩) (setOf ⟨1, 1, 1⟩ 8)) = some i →
        i < (linesAt (init_cache ⟨1, 1, 1⟩) (setOf ⟨1, 1, 1⟩ 8)).length) ∧
      (∀ r, (scanLoop (linesAt (init_cache ⟨1, 1, 1⟩) (setOf ⟨1, 1, 1⟩ 8)) 0 INT_MAX none).1 = some r →
        r < (linesAt (init_cache ⟨1, 1, 1⟩) (setOf ⟨1, 1, 1⟩ 8)).length) ∧
      (∀ r, (scanLoop (linesAt (init_cache ⟨1, 1, 1⟩) (setOf ⟨1, 1, 1⟩ 8)) 0 INT_MAX none).1 = none →
        (scanLoop (linesAt (init_cache ⟨1, 1, 1⟩) (setOf ⟨1, 1, 1⟩ 8)) 0 INT_MAX none).2 = some r →
        r < (linesAt (init_cache ⟨1, 1, 1⟩) (setOf ⟨1, 1, 1⟩ 8)).length) ∧
      ((access ⟨1, 1, 1⟩ (init_cache ⟨1, 1, 1⟩) 8).2 = Outcome.Hit ∨
        ∃ ev, (access ⟨1, 1, 1⟩ (init_cache ⟨1, 1, 1⟩) 8).2 = Outcome.Miss ev) :=
  access_in_bounds_total ⟨1, 1, 1⟩ (init_cache ⟨1, 1, 1⟩) 8 (by decide)
    (by decide) (by decide) (by decide)

theorem getD_modifyIdx_none (F : List CacheLine → List CacheLine) (σ : Nat)
    (cs : List (List CacheLine)) (h : cs[σ]? = none) :
    (modifyIdx F σ cs).getD σ [] = cs.getD σ [] := by
  have h1 := getElem?_modifyIdx_self F σ cs
  rw [h] at h1
  simp [List.getD, h, h1]

/-- C2: if the target set holds a valid line with the target tag, the access
is a hit on the first such line (index order): `hits` is incremented, that
line's recency is set to the pre-increment clock, the clock advances, and the
miss and eviction counters are untouched. -/
theorem hit_path_spec (g : Geometry) (st : SimState) (addr : Nat)
    (ls : List CacheLine) (hls : st.cache[setOf g addr]? = some ls)
    (hpresent : ∃ (j : Nat) (lj : CacheLine), ls[j]? = some lj ∧
      lj.tag = tagOf g addr ∧ lj.valid = true) :
    ∃ (i : Nat) (l : CacheLine),
      ls[i]? = some l ∧ l.tag = tagOf g addr ∧ l.valid = true ∧
      (∀ (j : Nat) (lj : CacheLine), j < i → ls[j]? = some lj →
        ¬(lj.tag = tagOf g addr ∧ lj.valid = true)) ∧
      (access g st addr).2 = Outcome.Hit ∧
      (access_data g st addr).hit_cnt = st.hit_cnt + 1 ∧
      (access_data g st addr).miss_cnt = st.miss_cnt ∧
      (access_data g st addr).evict_cnt = st.evict_cnt ∧
      (access_data g st addr).counter = st.counter + 1 ∧
      (linesAt (access_data g st addr) (setOf g addr))[i]?
        = some { l with count := st.counter } := by
  obtain ⟨j, lj, hj, hjt, hjv⟩ := hpresent
  have hlines : linesAt st (setOf g addr) = ls :=
    getD_eq_of_getElem? _ _ _ _ hls
  obtain ⟨i, hi⟩ := hitIdx_isSome_of_mem (tagOf g addr) ls lj
    (List.getElem?_mem hj) hjt hjv
  obtain ⟨l, hl, hlt, hlv, hfirst⟩ := hitIdx_spec _ ls i hi
  have hacc := access_of_hit g st addr i (by rw [hlines]; exact hi)
  have hst : access_data g st addr =
      { st with
          hit_cnt := st.hit_cnt + 1
          cache := modifyIdx
            (fun ls => modifyIdx (fun l => { l with count := st.counter }) i ls)
            (setOf g addr) st.cache
          counter := st.counter + 1 } := by
    unfold access_data
    rw [hacc]
  refine ⟨i, l, hl, hlt, hlv, fun j lj hj hlj => hfirst j hj lj hlj,
    ?_, ?_, ?_, ?_, ?_, ?_⟩
  · rw [hacc]
  · rw [hst]
  · rw [hst]
  · rw [hst]
  · rw [hst]
  · rw [hst]
    show ((modifyIdx _ (setOf g addr) st.cache).getD (setOf g addr) [])[i]? = _
    rw [linesAt_update st _ (setOf g addr) ls hls,
      getElem?_modifyIdx_self, hl]
    rfl

theorem hit_path_spec_witness :
    ∃ (i : Nat) (l : CacheLine),
      [fillLine 0 1][i]? = some l ∧ l.tag = tagOf ⟨1, 1, 1⟩ 0 ∧
      l.valid = true ∧
      (∀ (j : Nat) (lj : CacheLine), j < i → [fillLine 0 1][j]? = some lj →
        ¬(lj.tag = tagOf ⟨1, 1, 1⟩ 0 ∧ lj.valid = true)) ∧
      (access ⟨1, 1, 1⟩ (access_data ⟨1, 1, 1⟩ (init_cache ⟨1, 1, 1⟩) 0) 0).2
        = Outcome.Hit ∧
      (access_data ⟨1, 1, 1⟩ (access_data ⟨1, 1, 1⟩ (init_cache ⟨1, 1, 1⟩) 0) 0).hit_cnt
        = (access_data ⟨1, 1, 1⟩ (init_cache ⟨1, 1, 1⟩) 0).hit_cnt + 1 ∧
      (access_data ⟨1, 1, 1⟩ (access_data ⟨1, 1, 1⟩ (init_cache ⟨1, 1, 1⟩) 0) 0).miss_cnt
        = (access_data ⟨1, 1, 1⟩ (init_cache ⟨1, 1, 1⟩) 0).miss_cnt ∧
      (access_data ⟨1, 1, 1⟩ (access_data ⟨1, 1, 1⟩ (init_cache ⟨1, 1, 1⟩) 0) 0).evict_cnt
        = (access_data ⟨1, 1, 1⟩ (init_cache ⟨1, 1, 1⟩) 0).evict_cnt ∧
      (access_data ⟨1, 1, 1⟩ (access_data ⟨1, 1, 1⟩ (init_cache ⟨1, 1, 1⟩) 0) 0).counter
        = (access_data ⟨1, 1, 1⟩ (init_cache ⟨1, 1, 1⟩) 0).counter + 1 ∧
      (linesAt (access_data ⟨1, 1, 1⟩ (access_data ⟨1, 1, 1⟩ (init_cache ⟨1, 1, 1⟩) 0) 0)
          (setOf ⟨1, 1, 1⟩ 0))[i]?
        = some { l with count := (access_data ⟨1, 1, 1⟩ (init_cache ⟨1, 1, 1⟩) 0).counter } :=
  hit_path_spec ⟨1, 1, 1⟩ (access_data ⟨1, 1, 1⟩ (init_cache ⟨1, 1, 1⟩) 0) 0
    [fillLine 0 1] (by decide) ⟨0, fillLine 0 1, by decide, by decide, by decide⟩

/-- C1: on a miss, if the target set holds an invalid line then the
lowest-index invalid line becomes the fill target and `evictions` is not
incremented; if instead every line is valid, the line with the strictly
smallest recency (below the C `INT_MAX` sentinel, as in every reachable
state) is the victim and `evictions` is incremented by exactly one.  Either
way the chosen line is rewritten valid with the target tag and the
pre-increment clock value. -/
theorem miss_fill_or_evict (g : Geometry) (st : SimState) (addr : Nat)
    (ls : List CacheLine) (hls : st.cache[setOf g addr]? = some ls)
    (hmiss : hitIdx (tagOf g addr) ls = none) :
    (∀ (f : Nat) (lf : CacheLine), ls[f]? = some lf → lf.valid = false →
      (∀ (j : Nat) (lj : CacheLine), j < f → ls[j]? = some lj →
        lj.valid = true) →
      (access g st addr).2 = Outcome.Miss false ∧
        (access_data g st addr).evict_cnt = st.evict_cnt ∧
        (access_data g st addr).miss_cnt = st.miss_cnt + 1 ∧
        (access_data g st addr).hit_cnt = st.hit_cnt ∧
        (access_data g st addr).counter = st.counter + 1 ∧
        (linesAt (access_data g st addr) (setOf g addr))[f]?
          = some (fillLine (tagOf g addr) st.counter)) ∧
    (∀ (v : Nat) (lv : CacheLine),
      (∀ (j : Nat) (lj : CacheLine), ls[j]? = some lj → lj.valid = true) →
      ls[v]? = some lv → lv.count < INT_MAX →
      (∀ (j : Nat) (lj : CacheLine), ls[j]? = some lj → j ≠ v →
        lv.count < lj.count) →
      (access g st addr).2 = Outcome.Miss true ∧
        (access_data g st addr).evict_cnt = st.evict_cnt + 1 ∧
        (access_data g st addr).miss_cnt = st.miss_cnt + 1 ∧
        (access_data g st addr).hit_cnt = st.hit_cnt ∧
        (access_data g st addr).counter = st.counter + 1 ∧
        (linesAt (access_data g st addr) (setOf g addr))[v]?
          = some (fillLine (tagOf g addr) st.counter)) := by
  have hlines : linesAt st (setOf g addr) = ls :=
    getD_eq_of_getElem? _ _ _ _ hls
  constructor
  · intro f lf hf hlf hpre
    cases hsl : scanLoop ls 0 INT_MAX none with
    | mk fst snd =>
        have hfst : fst = some f := by
          have := scanLoop_fst_of_first_invalid ls 0 INT_MAX none f lf hf hlf hpre
          rw [hsl] at this
          simpa using this
        subst hfst
        have hacc := access_of_free g st addr f snd
          (by rw [hlines]; exact hmiss) (by rw [hlines]; exact hsl)
        have hst : access_data g st addr =
            { st with
                miss_cnt := st.miss_cnt + 1
                cache := modifyIdx
                  (fun ls => modifyIdx
                    (fun _ => fillLine (tagOf g addr) st.counter) f ls)
                  (setOf g addr) st.cache
                counter := st.counter + 1 } := by
          unfold access_data
          rw [hacc]
        refine ⟨by rw [hacc], by rw [hst], by rw [hst], by rw [hst],
          by rw [hst], ?_⟩
        rw [hst]
        show ((modifyIdx _ (setOf g addr) st.cache).getD (setOf g addr) [])[f]? = _
        rw [linesAt_update st _ (setOf g addr) ls hls,
          getElem?_modifyIdx_self, hf]
        rfl
  · intro v lv hall hv hsent hminv
    have hsl : scanLoop ls 0 INT_MAX none = (none, some v) := by
      have := scanLoop_of_strict_min ls 0 INT_MAX none v lv hall hv hsent hminv
      simpa using this
    have hacc := access_of_evict g st addr v
      (by rw [hlines]; exact hmiss) (by rw [hlines]; exact hsl)
    have hst : access_data g st addr =
        { st with
            miss_cnt := st.miss_cnt + 1
            evict_cnt := st.evict_cnt + 1
            cache := modifyIdx
              (fun ls => modifyIdx
                (fun _ => fillLine (tagOf g addr) st.counter) v ls)
              (setOf g addr) st.cache
            counter := st.counter + 1 } := by
      unfold access_data
      rw [hacc]
    refine ⟨by rw [hacc], by rw [hst], by rw [hst], by rw [hst],
      by rw [hst], ?_⟩
    rw [hst]
    show ((modifyIdx _ (setOf g addr) st.cache).getD (setOf g addr) [])[v]? = _
    rw [linesAt_update st _ (setOf g addr) ls hls,
      getElem?_modifyIdx_self, hv]
    rfl

theorem miss_fill_or_evict_witness :
    (access ⟨1, 1, 1⟩ (init_cache ⟨1, 1, 1⟩) 8).2 = Outcome.Miss false ∧
      (access_data ⟨1, 1, 1⟩ (init_cache ⟨1, 1, 1⟩) 8).evict_cnt
        = (init_cache ⟨1, 1, 1⟩).evict_cnt ∧
      (access_data ⟨1, 1, 1⟩ (init_cache ⟨1, 1, 1⟩) 8).miss_cnt
        = (init_cache ⟨1, 1, 1⟩).miss_cnt + 1 ∧
      (access_data ⟨1, 1, 1⟩ (init_cache ⟨1, 1, 1⟩) 8).hit_cnt
        = (init_cache ⟨1, 1, 1⟩).hit_cnt ∧
      (access_data ⟨1, 1, 1⟩ (init_cache ⟨1, 1, 1⟩) 8).counter
        = (init_cache ⟨1, 1, 1⟩).counter + 1 ∧
      (linesAt (access_data ⟨1, 1, 1⟩ (init_cache ⟨1, 1, 1⟩) 8)
          (setOf ⟨1, 1, 1⟩ 8))[0]?
        = some (fillLine (tagOf ⟨1, 1, 1⟩ 8) (init_cache ⟨1, 1, 1⟩).counter) :=
  (miss_fill_or_evict ⟨1, 1, 1⟩ (init_cache ⟨1, 1, 1⟩) 8 [initLine]
      (by decide) (by decide)).1 0 initLine (by decide) (by decide)
    (fun j lj hj hlj => absurd hj (Nat.not_lt_zero j))

/-- C10: a single access modifies at most one cache line: every other set is
untouched, every other line of the target set is untouched, and on a hit the
touched line keeps its valid flag and tag (only its recency changes). -/
theorem access_frame_effect (g : Geometry) (st : SimState) (addr : Nat) :
    ∃ (si li : Nat),
      si = setOf g addr ∧
      (∀ sj, sj ≠ si → (access_data g st addr).cache[sj]? = st.cache[sj]?) ∧
      (∀ j, j ≠ li →
        (linesAt (access_data g st addr) si)[j]? = (linesAt st si)[j]?) ∧
      ((access g st addr).2 = Outcome.Hit →
        ∀ l l', (linesAt st si)[li]? = some l →
          (linesAt (access_data g st addr) si)[li]? = some l' →
          l'.valid = l.valid ∧ l'.tag = l.tag) := by
  have frame_of : ∀ (F : List CacheLine → List CacheLine) (li : Nat),
      (∀ (ls : List CacheLine) (j : Nat), j ≠ li → (F ls)[j]? = ls[j]?) →
      ∀ j, j ≠ li →
        ((modifyIdx F (setOf g addr) st.cache).getD (setOf g addr) [])[j]?
          = (st.cache.getD (setOf g addr) [])[j]? := by
    intro F li hF j hj
    cases hcs : st.cache[setOf g addr]? with
    | none =>
        rw [getD_modifyIdx_none F (setOf g addr) st.cache hcs]
    | some ls =>
        rw [linesAt_update st F (setOf g addr) ls hcs,
          getD_eq_of_getElem? _ _ _ _ hcs]
        exact hF ls j hj
  have outer_of : ∀ (F : List CacheLine → List CacheLine),
      ∀ sj, sj ≠ setOf g addr →
        (modifyIdx F (setOf g addr) st.cache)[sj]? = st.cache[sj]? := by
    intro F sj hj
    exact getElem?_modifyIdx_ne F (setOf g addr) sj st.cache hj
  cases hh : hitIdx (tagOf g addr) (linesAt st (setOf g addr)) with
  | some i =>
      have hacc := access_of_hit g st addr i hh
      have hst : access_data g st addr =
          { st with
              hit_cnt := st.hit_cnt + 1
              cache := modifyIdx
                (fun ls => modifyIdx (fun l => { l with count := st.counter }) i ls)
                (setOf g addr) st.cache
              counter := st.counter + 1 } := by
        unfold access_data
        rw [hacc]
      refine ⟨setOf g addr, i, rfl, ?_, ?_, ?_⟩
      · intro sj hj
        rw [hst]
        exact outer_of _ sj hj
      · intro j hj
        rw [hst]
        refine frame_of _ i (fun ls j hj => getElem?_modifyIdx_ne _ i j ls hj) j hj
      · intro _ l l' hl hl'
        cases hcs : st.cache[setOf g addr]? with
        | none =>
            rw [show linesAt st (setOf g addr) = [] by
                simp [linesAt, List.getD, hcs]] at hl
            simp at hl
        | some ls =>
            have h2 : linesAt st (setOf g addr) = ls :=
              getD_eq_of_getElem? _ _ _ _ hcs
            rw [h2] at hl
            have h3 : linesAt (access_data g st addr) (setOf g addr)
                = modifyIdx (fun l => { l with count := st.counter }) i ls := by
              rw [hst]
              exact linesAt_update st _ (setOf g addr) ls hcs
            rw [h3, getElem?_modifyIdx_self, hl] at hl'
            simp only [Option.map_some'] at hl'
            have h4 := Option.some.inj hl'
            rw [← h4]
            exact ⟨rfl, rfl⟩
  | none =>
      cases hsl : scanLoop (linesAt st (setOf g addr)) 0 INT_MAX none with
      | mk fst snd =>
          cases fst with
          | some f =>
              have hacc := access_of_free g st addr f snd hh hsl
              have hst : access_data g st addr =
                  { st with
                      miss_cnt := st.miss_cnt + 1
                      cache := modifyIdx
                        (fun ls => modifyIdx
                          (fun _ => fillLine (tagOf g addr) st.counter) f ls)
                        (setOf g addr) st.cache
                      counter := st.counter + 1 } := by
                unfold access_data
                rw [hacc]
              refine ⟨setOf g addr, f, rfl, ?_, ?_, ?_⟩
              · intro sj hj
                rw [hst]
                exact outer_of _ sj hj
              · intro j hj
                rw [hst]
                exact frame_of _ f
                  (fun ls j hj => getElem?_modifyIdx_ne _ f j ls hj) j hj
              · intro hout
                rw [hacc] at hout
                simp at hout
          | none =>
              cases snd with
              | some v =>
                  have hacc := access_of_evict g st addr v hh hsl
                  have hst : access_data g st addr =
                      { st with
                          miss_cnt := st.miss_cnt + 1
                          evict_cnt := st.evict_cnt + 1
                          cache := modifyIdx
                            (fun ls => modifyIdx
                              (fun _ => fillLine (tagOf g addr) st.counter) v ls)
                            (setOf g addr) st.cache
                          counter := st.counter + 1 } := by
                    unfold access_data
                    rw [hacc]
                  refine ⟨setOf g addr, v, rfl, ?_, ?_, ?_⟩
                  · intro sj hj
                    rw [hst]
                    exact outer_of _ sj hj
                  · intro j hj
                    rw [hst]
                    exact frame_of _ v
                      (fun ls j hj => getElem?_modifyIdx_ne _ v j ls hj) j hj
                  · intro hout
                    rw [hacc] at hout
                    simp at hout
              | none =>
                  have hacc := access_of_stuck g st addr hh hsl
                  have hst : access_data g st addr =
                      { st with miss_cnt := st.miss_cnt + 1 } := by
                    unfold access_data
                    rw [hacc]
                  refine ⟨setOf g addr, 0, rfl, ?_, ?_, ?_⟩
                  · intro sj hj
                    rw [hst]
                  · intro j hj
                    rw [hst]
                    rfl
                  · intro hout
                    rw [hacc] at hout
                    simp at hout

theorem access_frame_effect_witness :
    ∃ (si li : Nat),
      si = setOf ⟨1, 1, 1⟩ 8 ∧
      (∀ sj, sj ≠ si →
        (access_data ⟨1, 1, 1⟩ (init_cache ⟨1, 1, 1⟩) 8).cache[sj]?
          = (init_cache ⟨1, 1, 1⟩).cache[sj]?) ∧
      (∀ j, j ≠ li →
        (linesAt (access_data ⟨1, 1, 1⟩ (init_cache ⟨1, 1, 1⟩) 8) si)[j]?
          = (linesAt (init_cache ⟨1, 1, 1⟩) si)[j]?) ∧
      ((access ⟨1, 1, 1⟩ (init_cache ⟨1, 1, 1⟩) 8).2 = Outcome.Hit →
        ∀ l l', (linesAt (init_cache ⟨1, 1, 1⟩) si)[li]? = some l →
          (linesAt (access_data ⟨1, 1, 1⟩ (init_cache ⟨1, 1, 1⟩) 8) si)[li]?
            = some l' →
          l'.valid = l.valid ∧ l'.tag = l.tag) :=
  access_frame_effect ⟨1, 1, 1⟩ (init_cache ⟨1, 1, 1⟩) 8

/-- C8: with geometry `s=1, E=1, b=1`, the records `L 0,1`, `L 8,1`, `L 0,1`
decode addresses 0 and 8 to set 0 with different tags, and replay from the
empty cache yields Miss, Miss+Evict, Miss+Evict with final counters
`hits=0, misses=3, evictions=2`. -/
theorem concrete_trace_s1_E1_b1 :
    setOf ⟨1, 1, 1⟩ 0 = 0 ∧ setOf ⟨1, 1, 1⟩ 8 = 0 ∧
      tagOf ⟨1, 1, 1⟩ 0 = 0 ∧ tagOf ⟨1, 1, 1⟩ 8 = 2 ∧
      (access ⟨1, 1, 1⟩ (init_cache ⟨1, 1, 1⟩) 0).2 = Outcome.Miss false ∧
      (access ⟨1, 1, 1⟩ (access_data ⟨1, 1, 1⟩ (init_cache ⟨1, 1, 1⟩) 0) 8).2
        = Outcome.Miss true ∧
      (access ⟨1, 1, 1⟩
          (access_data ⟨1, 1, 1⟩
            (access_data ⟨1, 1, 1⟩ (init_cache ⟨1, 1, 1⟩) 0) 8) 0).2
        = Outcome.Miss true ∧
      (replay_trace ⟨1, 1, 1⟩ (init_cache ⟨1, 1, 1⟩)
          [⟨OpKind.load, 0⟩, ⟨OpKind.load, 8⟩, ⟨OpKind.load, 0⟩]).hit_cnt = 0 ∧
      (replay_trace ⟨1, 1, 1⟩ (init_cache ⟨1, 1, 1⟩)
          [⟨OpKind.load, 0⟩, ⟨OpKind.load, 8⟩, ⟨OpKind.load, 0⟩]).miss_cnt = 3 ∧
      (replay_trace ⟨1, 1, 1⟩ (init_cache ⟨1, 1, 1⟩)
          [⟨OpKind.load, 0⟩, ⟨OpKind.load, 8⟩, ⟨OpKind.load, 0⟩]).evict_cnt = 2 := by
  decide

/-- C3: with two lines per set, accessing tags X, Y, X, Z (all in one set,
pairwise distinct tags, starting from the empty cache) evicts the line
holding Y on the fourth access and leaves the line holding X resident. -/
theorem lru_two_lines_evicts_stale (g : Geometry) (aX aY aZ : Nat)
    (hE : g.E = 2)
    (hsY : setOf g aY = setOf g aX) (hsZ : setOf g aZ = setOf g aX)
    (hXY : tagOf g aX ≠ tagOf g aY) (hXZ : tagOf g aX ≠ tagOf g aZ)
    (hYZ : tagOf g aY ≠ tagOf g aZ) :
    (access g (runAccesses g (init_cache g) [aX, aY, aX]) aZ).2
        = Outcome.Miss true ∧
      linesAt (runAccesses g (init_cache g) [aX, aY, aX, aZ]) (setOf g aX)
        = [fillLine (tagOf g aX) 3, fillLine (tagOf g aZ) 4] ∧
      (∀ (i : Nat) (l : CacheLine),
        (linesAt (runAccesses g (init_cache g) [aX, aY, aX, aZ])
          (setOf g aX))[i]? = some l → l.tag ≠ tagOf g aY) := by
  have hcs0 : (init_cache g).cache[setOf g aX]? = some [initLine, initLine] := by
    show (List.replicate (2 ^ g.s) (List.replicate g.E initLine))[setOf g aX]? = _
    rw [List.getElem?_replicate, if_pos (setOf_lt g aX), hE]
    rfl
  have hlines0 : linesAt (init_cache g) (setOf g aX) = [initLine, initLine] :=
    getD_eq_of_getElem? _ _ _ _ hcs0
  -- first access: aX misses and fills line 0 with recency 1
  have hhit0 : hitIdx (tagOf g aX) (linesAt (init_cache g) (setOf g aX)) = none := by
    rw [hlines0]
    simp [hitIdx, initLine]
  have hscan0 : scanLoop (linesAt (init_cache g) (setOf g aX)) 0 INT_MAX none
      = (some 0, none) := by
    rw [hlines0]
    simp [scanLoop, initLine]
  have hst1 : access_data g (init_cache g) aX =
      { cache := modifyIdx
          (fun ls => modifyIdx (fun _ => fillLine (tagOf g aX) 1) 0 ls)
          (setOf g aX) (init_cache g).cache
        hit_cnt := 0, miss_cnt := 1, evict_cnt := 0, counter := 2 } := by
    show (access g (init_cache g) aX).1 = _
    rw [access_of_free g (init_cache g) aX 0 none hhit0 hscan0]
    rfl
  have hcs1 : (access_data g (init_cache g) aX).cache[setOf g aX]?
      = some [fillLine (tagOf g aX) 1, initLine] := by
    rw [hst1]
    show (modifyIdx _ (setOf g aX) (init_cache g).cache)[setOf g aX]? = _
    rw [getElem?_modifyIdx_self, hcs0]
    rfl
  have hlines1 : linesAt (access_data g (init_cache g) aX) (setOf g aX)
      = [fillLine (tagOf g aX) 1, initLine] :=
    getD_eq_of_getElem? _ _ _ _ hcs1
  -- second access: aY misses and fills line 1 with recency 2
  have hhit1 : hitIdx (tagOf g aY)
      (linesAt (access_data g (init_cache g) aX) (setOf g aY)) = none := by
    rw [hsY, hlines1]
    simp [hitIdx, fillLine, initLine, hXY]
  have hscan1 : scanLoop
      (linesAt (access_data g (init_cache g) aX) (setOf g aY)) 0 INT_MAX none
      = (some 1, some 0) := by
    rw [hsY, hlines1]
    simp [scanLoop, fillLine, initLine, INT_MAX]
  have hst2 : access_data g (access_data g (init_cache g) aX) aY =
      { cache := modifyIdx
          (fun ls => modifyIdx (fun _ => fillLine (tagOf g aY) 2) 1 ls)
          (setOf g aY) (access_data g (init_cache g) aX).cache
        hit_cnt := 0, miss_cnt := 2, evict_cnt := 0, counter := 3 } := by
    show (access g (access_data g (init_cache g) aX) aY).1 = _
    rw [access_of_free g (access_data g (init_cache g) aX) aY 1 (some 0)
      hhit1 hscan1, hst1]
  have hcs2 : (access_data g (access_data g (init_cache g) aX) aY).cache[setOf g aX]?
      = some [fillLine (tagOf g aX) 1, fillLine (tagOf g aY) 2] := by
    rw [hst2]
    show (modifyIdx _ (setOf g aY) _)[setOf g aX]? = _
    rw [hsY, getElem?_modifyIdx_self, hcs1]
    rfl
  have hlines2 : linesAt (access_data g (access_data g (init_cache g) aX) aY)
      (setOf g aX) = [fillLine (tagOf g aX) 1, fillLine (tagOf g aY) 2] :=
    getD_eq_of_getElem? _ _ _ _ hcs2
  -- third access: aX hits line 0 and refreshes its recency to 3
  have hhit2 : hitIdx (tagOf g aX)
      (linesAt (access_data g (access_data g (init_cache g) aX) aY)
        (setOf g aX)) = some 0 := by
    rw [hlines2]
    simp [hitIdx, fillLine]
  have hst3 : access_data g (access_data g (access_data g (init_cache g) aX) aY) aX =
      { cache := modifyIdx
          (fun ls => modifyIdx (fun l => { l with count := 3 }) 0 ls)
          (setOf g aX)
          (access_data g (access_data g (init_cache g) aX) aY).cache
        hit_cnt := 1, miss_cnt := 2, evict_cnt := 0, counter := 4 } := by
    show (access g (access_data g (access_data g (init_cache g) aX) aY) aX).1 = _
    rw [access_of_hit g (access_data g (access_data g (init_cache g) aX) aY) aX 0
      hhit2, hst2]
  have hcs3 : (access_data g (access_data g (access_data g (init_cache g) aX) aY)
      aX).cache[setOf g aX]?
      = some [fillLine (tagOf g aX) 3, fillLine (tagOf g aY) 2] := by
    rw [hst3]
    show (modifyIdx _ (setOf g aX) _)[setOf g aX]? = _
    rw [getElem?_modifyIdx_self, hcs2]
    rfl
  have hlines3 : linesAt
      (access_data g (access_data g (access_data g (init_cache g) aX) aY) aX)
      (setOf g aX) = [fillLine (tagOf g aX) 3, fillLine (tagOf g aY) 2] :=
    getD_eq_of_getElem? _ _ _ _ hcs3
  -- fourth access: aZ misses; line 1 (holding Y, recency 2 < 3) is evicted
  have hhit3 : hitIdx (tagOf g aZ)
      (linesAt (access_data g (access_data g (access_data g (init_cache g) aX) aY) aX)
        (setOf g aZ)) = none := by
    rw [hsZ, hlines3]
    simp [hitIdx, fillLine, hXZ, hYZ]
  have hscan3 : scanLoop
      (linesAt (access_data g (access_data g (access_data g (init_cache g) aX) aY) aX)
        (setOf g aZ)) 0 INT_MAX none = (none, some 1) := by
    rw [hsZ, hlines3]
    simp [scanLoop, fillLine, INT_MAX]
  have hout : (access g
      (access_data g (access_data g (access_data g (init_cache g) aX) aY) aX)
      aZ).2 = Outcome.Miss true := by
    rw [access_of_evict g
      (access_data g (access_data g (access_data g (init_cache g) aX) aY) aX)
      aZ 1 hhit3 hscan3]
  have hst4 : access_data g
      (access_data g (access_data g (access_data g (init_cache g) aX) aY) aX) aZ =
      { cache := modifyIdx
          (fun ls => modifyIdx (fun _ => fillLine (tagOf g aZ) 4) 1 ls)
          (setOf g aZ)
          (access_data g (access_data g (access_data g (init_cache g) aX) aY)
            aX).cache
        hit_cnt := 1, miss_cnt := 3, evict_cnt := 1, counter := 5 } := by
    show (access g
      (access_data g (access_data g (access_data g (init_cache g) aX) aY) aX)
      aZ).1 = _
    rw [access_of_evict g
      (access_data g (access_data g (access_data g (init_cache g) aX) aY) aX)
      aZ 1 hhit3 hscan3, hst3]
  have hcs4 : (access_data g
      (access_data g (access_data g (access_data g (init_cache g) aX) aY) aX)
      aZ).cache[setOf g aX]?
      = some [fillLine (tagOf g aX) 3, fillLine (tagOf g aZ) 4] := by
    rw [hst4]
    show (modifyIdx _ (setOf g aZ) _)[setOf g aX]? = _
    rw [hsZ, getElem?_modifyIdx_self, hcs3]
    rfl
  have hlines4 : linesAt (access_data g
      (access_data g (access_data g (access_data g (init_cache g) aX) aY) aX) aZ)
      (setOf g aX) = [fillLine (tagOf g aX) 3, fillLine (tagOf g aZ) 4] :=
    getD_eq_of_getElem? _ _ _ _ hcs4
  have hlines4r : linesAt (runAccesses g (init_cache g) [aX, aY, aX, aZ])
      (setOf g aX) = [fillLine (tagOf g aX) 3, fillLine (tagOf g aZ) 4] := hlines4
  refine ⟨hout, hlines4, ?_⟩
  intro i l hl
  rw [hlines4r] at hl
  match i with
  | 0 =>
      simp at hl
      rw [← hl]
      simpa [fillLine] using hXY
  | 1 =>
      simp at hl
      rw [← hl]
      simpa [fillLine] using Ne.symm hYZ
  | n + 2 =>
      simp at hl

theorem lru_two_lines_evicts_stale_witness :
    (access ⟨1, 1, 2⟩ (runAccesses ⟨1, 1, 2⟩ (init_cache ⟨1, 1, 2⟩) [0, 8, 0]) 16).2
        = Outcome.Miss true ∧
      linesAt (runAccesses ⟨1, 1, 2⟩ (init_cache ⟨1, 1, 2⟩) [0, 8, 0, 16])
          (setOf ⟨1, 1, 2⟩ 0)
        = [fillLine (tagOf ⟨1, 1, 2⟩ 0) 3, fillLine (tagOf ⟨1, 1, 2⟩ 16) 4] ∧
      (∀ (i : Nat) (l : CacheLine),
        (linesAt (runAccesses ⟨1, 1, 2⟩ (init_cache ⟨1, 1, 2⟩) [0, 8, 0, 16])
          (setOf ⟨1, 1, 2⟩ 0))[i]? = some l → l.tag ≠ tagOf ⟨1, 1, 2⟩ 8) :=
  lru_two_lines_evicts_stale ⟨1, 1, 2⟩ 0 8 16 (by decide) (by decide)
    (by decide) (by decide) (by decide) (by decide)

/-! Invariants of reachable simulator states: well-formed dimensions, all
valid recencies below the clock, and pairwise distinct valid recencies. -/

/-- The cache has `2^s` sets of `E` lines each. -/
def dims (g : Geometry) (st : SimState) : Prop :=
  st.cache.length = 2 ^ g.s ∧
    ∀ (si : Nat) (ls : List CacheLine), st.cache[si]? = some ls →
      ls.length = g.E

/-- Every valid line's recency is below the current clock (recencies are
assigned from pre-increment clock values). -/
def validBound (st : SimState) : Prop :=
  ∀ (si : Nat) (ls : List CacheLine) (i : Nat) (l : CacheLine),
    st.cache[si]? = some ls → ls[i]? = some l → l.valid = true →
    l.count < st.counter

/-- No two distinct valid lines anywhere in the cache carry the same
recency value. -/
def distinctCounts (st : SimState) : Prop :=
  ∀ (s1 : Nat) (ls1 : List CacheLine) (i1 : Nat) (l1 : CacheLine)
    (s2 : Nat) (ls2 : List CacheLine) (i2 : Nat) (l2 : CacheLine),
    st.cache[s1]? = some ls1 → ls1[i1]? = some l1 → l1.valid = true →
    st.cache[s2]? = some ls2 → ls2[i2]? = some l2 → l2.valid = true →
    ¬(s1 = s2 ∧ i1 = i2) → l1.count ≠ l2.count

theorem getLine_write_untouched (cs : List (List CacheLine)) (σ t : Nat)
    (f : CacheLine → CacheLine) (si i : Nat) (ls : List CacheLine)
    (l : CacheLine)
    (hsi : (modifyIdx (fun ls => modifyIdx f t ls) σ cs)[si]? = some ls)
    (hi : ls[i]? = some l) (huntouched : ¬(si = σ ∧ i = t)) :
    ∃ ls0, cs[si]? = some ls0 ∧ ls0[i]? = some l := by
  by_cases h1 : si = σ
  · subst h1
    rw [getElem?_modifyIdx_self] at hsi
    cases hcσ : cs[si]? with
    | none =>
        rw [hcσ] at hsi
        simp at hsi
    | some ls0 =>
        rw [hcσ] at hsi
        simp only [Option.map_some'] at hsi
        have hls : ls = modifyIdx f t ls0 := (Option.some.inj hsi).symm
        subst hls
        have h2 : i ≠ t := fun h => huntouched ⟨rfl, h⟩
        rw [getElem?_modifyIdx_ne f t i ls0 h2] at hi
        exact ⟨ls0, rfl, hi⟩
  · rw [getElem?_modifyIdx_ne _ σ si cs h1] at hsi
    exact ⟨ls, hsi, hi⟩

theorem getLine_write_touched (cs : List (List CacheLine)) (σ t : Nat)
    (f : CacheLine → CacheLine) (ls : List CacheLine) (l : CacheLine)
    (hsi : (modifyIdx (fun ls => modifyIdx f t ls) σ cs)[σ]? = some ls)
    (hi : ls[t]? = some l) :
    ∃ l0, l = f l0 := by
  rw [getElem?_modifyIdx_self] at hsi
  cases hcσ : cs[σ]? with
  | none =>
      rw [hcσ] at hsi
      simp at hsi
  | some ls0 =>
      rw [hcσ] at hsi
      simp only [Option.map_some'] at hsi
      have hls : ls = modifyIdx f t ls0 := (Option.some.inj hsi).symm
      subst hls
      rw [getElem?_modifyIdx_self] at hi
      cases hl0 : ls0[t]? with
      | none =>
          rw [hl0] at hi
          simp at hi
      | some l0 =>
          rw [hl0] at hi
          simp only [Option.map_some'] at hi
          exact ⟨l0, (Option.some.inj hi).symm⟩

theorem dims_write (g : Geometry) (cs : List (List CacheLine)) (σ t : Nat)
    (f : CacheLine → CacheLine) (hlen : cs.length = 2 ^ g.s)
    (hsets : ∀ (si : Nat) (ls : List CacheLine), cs[si]? = some ls →
      ls.length = g.E) :
    (modifyIdx (fun ls => modifyIdx f t ls) σ cs).length = 2 ^ g.s ∧
      ∀ (si : Nat) (ls : List CacheLine),
        (modifyIdx (fun ls => modifyIdx f t ls) σ cs)[si]? = some ls →
        ls.length = g.E := by
  refine ⟨by rw [length_modifyIdx, hlen], ?_⟩
  intro si ls hsi
  by_cases h1 : si = σ
  · subst h1
    rw [getElem?_modifyIdx_self] at hsi
    cases hcσ : cs[si]? with
    | none =>
        rw [hcσ] at hsi
        simp at hsi
    | some ls0 =>
        rw [hcσ] at hsi
        simp only [Option.map_some'] at hsi
        rw [← Option.some.inj hsi, length_modifyIdx]
        exact hsets si ls0 hcσ
  · rw [getElem?_modifyIdx_ne _ σ si cs h1] at hsi
    exact hsets si ls hsi

theorem validBound_write (cs : List (List CacheLine)) (c : Nat) (σ t : Nat)
    (f : CacheLine → CacheLine)
    (hvb : ∀ (si : Nat) (ls : List CacheLine) (i : Nat) (l : CacheLine),
      cs[si]? = some ls → ls[i]? = some l → l.valid = true → l.count < c)
    (hf : ∀ l, (f l).count = c) :
    ∀ (si : Nat) (ls : List CacheLine) (i : Nat) (l : CacheLine),
      (modifyIdx (fun ls => modifyIdx f t ls) σ cs)[si]? = some ls →
      ls[i]? = some l → l.valid = true → l.count < c + 1 := by
  intro si ls i l hsi hi hval
  by_cases h : si = σ ∧ i = t
  · obtain ⟨h1, h2⟩ := h
    subst h1
    subst h2
    obtain ⟨l0, hl0⟩ := getLine_write_touched cs si i f ls l hsi hi
    rw [hl0, hf]
    omega
  · obtain ⟨ls0, hls0, hl⟩ := getLine_write_untouched cs σ t f si i ls l hsi hi h
    have := hvb si ls0 i l hls0 hl hval
    omega

theorem distinctCounts_write (cs : List (List CacheLine)) (c : Nat)
    (σ t : Nat) (f : CacheLine → CacheLine)
    (hvb : ∀ (si : Nat) (ls : List CacheLine) (i : Nat) (l : CacheLine),
      cs[si]? = some ls → ls[i]? = some l → l.valid = true → l.count < c)
    (hdc : ∀ (s1 : Nat) (ls1 : List CacheLine) (i1 : Nat) (l1 : CacheLine)
      (s2 : Nat) (ls2 : List CacheLine) (i2 : Nat) (l2 : CacheLine),
      cs[s1]? = some ls1 → ls1[i1]? = some l1 → l1.valid = true →
      cs[s2]? = some ls2 → ls2[i2]? = some l2 → l2.valid = true →
      ¬(s1 = s2 ∧ i1 = i2) → l1.count ≠ l2.count)
    (hf : ∀ l, (f l).count = c) :
    ∀ (s1 : Nat) (ls1 : List CacheLine) (i1 : Nat) (l1 : CacheLine)
      (s2 : Nat) (ls2 : List CacheLine) (i2 : Nat) (l2 : CacheLine),
      (modifyIdx (fun ls => modifyIdx f t ls) σ cs)[s1]? = some ls1 →
      ls1[i1]? = some l1 → l1.valid = true →
      (modifyIdx (fun ls => modifyIdx f t ls) σ cs)[s2]? = some ls2 →
      ls2[i2]? = some l2 → l2.valid = true →
      ¬(s1 = s2 ∧ i1 = i2) → l1.count ≠ l2.count := by
  intro s1 ls1 i1 l1 s2 ls2 i2 l2 h1s h1i h1v h2s h2i h2v hne
  by_cases ht1 : s1 = σ ∧ i1 = t
  · obtain ⟨hh1, hh2⟩ := ht1
    subst hh1
    subst hh2
    obtain ⟨l0, hl0⟩ := getLine_write_touched cs s1 i1 f ls1 l1 h1s h1i
    have ht2 : ¬(s2 = s1 ∧ i2 = i1) := by
      intro ⟨ha, hb⟩
      exact hne ⟨ha.symm, hb.symm⟩
    obtain ⟨ls0, hls0, hl⟩ :=
      getLine_write_untouched cs s1 i1 f s2 i2 ls2 l2 h2s h2i ht2
    have := hvb s2 ls0 i2 l2 hls0 hl h2v
    rw [hl0, hf]
    omega
  · obtain ⟨ls0, hls0, hl⟩ :=
      getLine_write_untouched cs σ t f s1 i1 ls1 l1 h1s h1i ht1
    by_cases ht2 : s2 = σ ∧ i2 = t
    · obtain ⟨hh1, hh2⟩ := ht2
      subst hh1
      subst hh2
      obtain ⟨l0, hl0⟩ := getLine_write_touched cs s2 i2 f ls2 l2 h2s h2i
      have := hvb s1 ls0 i1 l1 hls0 hl h1v
      rw [hl0, hf]
      omega
    · obtain ⟨ls0b, hls0b, hlb⟩ :=
        getLine_write_untouched cs σ t f s2 i2 ls2 l2 h2s h2i ht2
      exact hdc s1 ls0 i1 l1 s2 ls0b i2 l2 hls0 hl h1v hls0b hlb h2v hne

theorem access_invariant_step (g : Geometry) (st : SimState) (addr : Nat)
    (hE : 0 < g.E) (hdims : dims g st) (hvb : validBound st)
    (hdc : distinctCounts st) (hcnt : st.counter ≤ INT_MAX) :
    (access_data g st addr).counter = st.counter + 1 ∧
      dims g (access_data g st addr) ∧
      validBound (access_data g st addr) ∧
      distinctCounts (access_data g st addr) := by
  have hσlt : setOf g addr < st.cache.length := by
    rw [hdims.1]
    exact setOf_lt g addr
  obtain ⟨ls, hls⟩ : ∃ ls, st.cache[setOf g addr]? = some ls :=
    ⟨st.cache[setOf g addr], List.getElem?_eq_getElem hσlt⟩
  have hlenE : ls.length = g.E := hdims.2 _ ls hls
  have hlines : linesAt st (setOf g addr) = ls :=
    getD_eq_of_getElem? _ _ _ _ hls
  cases hh : hitIdx (tagOf g addr) (linesAt st (setOf g addr)) with
  | some i =>
      have hst1 : access_data g st addr =
          { st with
              hit_cnt := st.hit_cnt + 1
              cache := modifyIdx
                (fun ls => modifyIdx (fun l => { l with count := st.counter }) i ls)
                (setOf g addr) st.cache
              counter := st.counter + 1 } := by
        show (access g st addr).1 = _
        rw [access_of_hit g st addr i hh]
      refine ⟨by rw [hst1], ?_, ?_, ?_⟩
      · rw [hst1]
        exact dims_write g st.cache (setOf g addr) i _ hdims.1 hdims.2
      · rw [hst1]
        exact validBound_write st.cache st.counter (setOf g addr) i _ hvb
          (fun l => rfl)
      · rw [hst1]
        exact distinctCounts_write st.cache st.counter (setOf g addr) i _ hvb
          hdc (fun l => rfl)
  | none =>
      have hne : linesAt st (setOf g addr) ≠ [] := by
        rw [hlines]
        intro hnil
        rw [hnil] at hlenE
        simp at hlenE
        omega
      have hbound : ∀ (j : Nat) (lj : CacheLine),
          (linesAt st (setOf g addr))[j]? = some lj → lj.valid = true →
          lj.count < INT_MAX := by
        intro j lj hj hv
        rw [hlines] at hj
        have := hvb (setOf g addr) ls j lj hls hj hv
        omega
      obtain ⟨t, ht, hcase⟩ :=
        scanLoop_target (linesAt st (setOf g addr)) 0 INT_MAX none hne hbound
      rcases hp : scanLoop (linesAt st (setOf g addr)) 0 INT_MAX none with ⟨fst, snd⟩
      rw [hp] at hcase
      simp only [Nat.zero_add] at hcase
      rcases hcase with hc | ⟨hc1, hc2⟩
      · subst hc
        have hst1 : access_data g st addr =
            { st with
                miss_cnt := st.miss_cnt + 1
                cache := modifyIdx
                  (fun ls => modifyIdx
                    (fun _ => fillLine (tagOf g addr) st.counter) t ls)
                  (setOf g addr) st.cache
                counter := st.counter + 1 } := by
          show (access g st addr).1 = _
          rw [access_of_free g st addr t snd hh hp]
        refine ⟨by rw [hst1], ?_, ?_, ?_⟩
        · rw [hst1]
          exact dims_write g st.cache (setOf g addr) t _ hdims.1 hdims.2
        · rw [hst1]
          exact validBound_write st.cache st.counter (setOf g addr) t _ hvb
            (fun l => rfl)
        · rw [hst1]
          exact distinctCounts_write st.cache st.counter (setOf g addr) t _ hvb
            hdc (fun l => rfl)
      · subst hc1
        subst hc2
        have hst1 : access_data g st addr =
            { st with
                miss_cnt := st.miss_cnt + 1
                evict_cnt := st.evict_cnt + 1
                cache := modifyIdx
                  (fun ls => modifyIdx
                    (fun _ => fillLine (tagOf g addr) st.counter) t ls)
                  (setOf g addr) st.cache
                counter := st.counter + 1 } := by
          show (access g st addr).1 = _
          rw [access_of_evict g st addr t hh hp]
        refine ⟨by rw [hst1], ?_, ?_, ?_⟩
        · rw [hst1]
          exact dims_write g st.cache (setOf g addr) t _ hdims.1 hdims.2
        · rw [hst1]
          exact validBound_write st.cache st.counter (setOf g addr) t _ hvb
            (fun l => rfl)
        · rw [hst1]
          exact distinctCounts_write st.cache st.counter (setOf g addr) t _ hvb
            hdc (fun l => rfl)

theorem init_lines_invalid (g : Geometry) (si : Nat) (ls : List CacheLine)
    (i : Nat) (l : CacheLine) (hsi : (init_cache g).cache[si]? = some ls)
    (hi : ls[i]? = some l) : l.valid = false := by
  rw [show (init_cache g).cache
      = List.replicate (2 ^ g.s) (List.replicate g.E initLine) from rfl,
    List.getElem?_replicate] at hsi
  by_cases h : si < 2 ^ g.s
  · rw [if_pos h] at hsi
    rw [← Option.some.inj hsi, List.getElem?_replicate] at hi
    by_cases h2 : i < g.E
    · rw [if_pos h2] at hi
      rw [← Option.some.inj hi]
      rfl
    · rw [if_neg h2] at hi
      cases hi
  · rw [if_neg h] at hsi
    cases hsi

theorem dims_init (g : Geometry) : dims g (init_cache g) := by
  constructor
  · show (List.replicate (2 ^ g.s) (List.replicate g.E initLine)).length = 2 ^ g.s
    simp
  · intro si ls hsi
    rw [show (init_cache g).cache
        = List.replicate (2 ^ g.s) (List.replicate g.E initLine) from rfl,
      List.getElem?_replicate] at hsi
    by_cases h : si < 2 ^ g.s
    · rw [if_pos h] at hsi
      rw [← Option.some.inj hsi]
      simp
    · rw [if_neg h] at hsi
      cases hsi

theorem validBound_init (g : Geometry) : validBound (init_cache g) := by
  intro si ls i l hsi hi hval
  rw [init_lines_invalid g si ls i l hsi hi] at hval
  cases hval

theorem distinctCounts_init (g : Geometry) : distinctCounts (init_cache g) := by
  intro s1 ls1 i1 l1 s2 ls2 i2 l2 h1s h1i h1v _ _ _ _
  rw [init_lines_invalid g s1 ls1 i1 l1 h1s h1i] at h1v
  cases h1v

theorem run_invariant (g : Geometry) (hE : 0 < g.E) :
    ∀ (addrs : List Nat) (st : SimState), dims g st → validBound st →
      distinctCounts st → st.counter + addrs.length ≤ INT_MAX + 1 →
      (runAccesses g st addrs).counter = st.counter + addrs.length ∧
        dims g (runAccesses g st addrs) ∧
        validBound (runAccesses g st addrs) ∧
        distinctCounts (runAccesses g st addrs)
  | [], st => by
      intro hd hv hc _
      exact ⟨by simp [runAccesses], hd, hv, hc⟩
  | a :: rest, st => by
      intro hd hv hc hb
      have hlen : (a :: rest).length = rest.length + 1 := rfl
      have hstep := access_invariant_step g st a hE hd hv hc (by omega)
      have hrec := run_invariant g hE rest (access_data g st a)
        hstep.2.1 hstep.2.2.1 hstep.2.2.2 (by rw [hstep.1]; omega)
      refine ⟨?_, hrec.2.1, hrec.2.2.1, hrec.2.2.2⟩
      show (runAccesses g (access_data g st a) rest).counter = _
      rw [hrec.1, hstep.1, hlen]
      omega

/-- C7: the recency clock starts at 1 and advances exactly once per access
(after any number `k` of accesses it reads `1 + k`, so it is strictly
increasing), every valid line's recency is below the clock (recencies come
from pre-increment clock values), and no two valid lines ever hold equal
recency values.  The trace-length bound keeps the C `int` clock inside
`INT_MAX`, as in any run with defined behavior. -/
theorem clock_strictly_increasing_no_ties (g : Geometry) (addrs : List Nat)
    (hE : 0 < g.E) (hlen : addrs.length + 1 ≤ INT_MAX) :
    (init_cache g).counter = 1 ∧
      ∀ k, k ≤ addrs.length →
        (runAccesses g (init_cache g) (addrs.take k)).counter = 1 + k ∧
          validBound (runAccesses g (init_cache g) (addrs.take k)) ∧
          distinctCounts (runAccesses g (init_cache g) (addrs.take k)) := by
  refine ⟨rfl, ?_⟩
  intro k hk
  have htake : (addrs.take k).length = k := by
    rw [List.length_take]
    omega
  have h := run_invariant g hE (addrs.take k) (init_cache g) (dims_init g)
    (validBound_init g) (distinctCounts_init g)
    (by show 1 + (addrs.take k).length ≤ INT_MAX + 1; rw [htake]; omega)
  have h1 := h.1
  rw [htake] at h1
  exact ⟨h1, h.2.2.1, h.2.2.2⟩

theorem clock_strictly_increasing_no_ties_witness :
    (init_cache ⟨1, 1, 1⟩).counter = 1 ∧
      ∀ k, k ≤ ([0, 8] : List Nat).length →
        (runAccesses ⟨1, 1, 1⟩ (init_cache ⟨1, 1, 1⟩)
          (([0, 8] : List Nat).take k)).counter = 1 + k ∧
          validBound (runAccesses ⟨1, 1, 1⟩ (init_cache ⟨1, 1, 1⟩)
            (([0, 8] : List Nat).take k)) ∧
          distinctCounts (runAccesses ⟨1, 1, 1⟩ (init_cache ⟨1, 1, 1⟩)
            (([0, 8] : List Nat).take k)) :=
  clock_strictly_increasing_no_ties ⟨1, 1, 1⟩ [0, 8] (by decide) (by decide)

/-- C6: a Modify record issues exactly two sequential `access_data` calls on
the same address with no special-case logic.  If the address is absent from
its set beforehand the two calls yield a Miss then a Hit (one miss and one
hit are counted, in that order); if it is already cached they yield two Hits
(two hits are counted, no miss).  The hypotheses are the well-formedness
facts of every reachable state. -/
theorem modify_two_accesses (g : Geometry) (st : SimState) (addr : Nat)
    (hE : 0 < g.E) (hdims : dims g st) (hvb : validBound st)
    (hcnt : st.counter ≤ INT_MAX) :
    replayRecord g st ⟨OpKind.modify, addr⟩
        = access_data g (access_data g st addr) addr ∧
      ((∀ (j : Nat) (lj : CacheLine),
          (linesAt st (setOf g addr))[j]? = some lj →
          ¬(lj.tag = tagOf g addr ∧ lj.valid = true)) →
        (∃ ev, (access g st addr).2 = Outcome.Miss ev) ∧
          (access g (access_data g st addr) addr).2 = Outcome.Hit ∧
          (access_data g (access_data g st addr) addr).hit_cnt
            = st.hit_cnt + 1 ∧
          (access_data g (access_data g st addr) addr).miss_cnt
            = st.miss_cnt + 1) ∧
      ((∃ (j : Nat) (lj : CacheLine),
          (linesAt st (setOf g addr))[j]? = some lj ∧
          lj.tag = tagOf g addr ∧ lj.valid = true) →
        (access g st addr).2 = Outcome.Hit ∧
          (access g (access_data g st addr) addr).2 = Outcome.Hit ∧
          (access_data g (access_data g st addr) addr).hit_cnt
            = st.hit_cnt + 2 ∧
          (access_data g (access_data g st addr) addr).miss_cnt
            = st.miss_cnt) := by
  have hσlt : setOf g addr < st.cache.length := by
    rw [hdims.1]
    exact setOf_lt g addr
  obtain ⟨ls, hls⟩ : ∃ ls, st.cache[setOf g addr]? = some ls :=
    ⟨st.cache[setOf g addr], List.getElem?_eq_getElem hσlt⟩
  have hlenE : ls.length = g.E := hdims.2 _ ls hls
  have hlines : linesAt st (setOf g addr) = ls :=
    getD_eq_of_getElem? _ _ _ _ hls
  refine ⟨rfl, ?_, ?_⟩
  · intro habs
    have hh : hitIdx (tagOf g addr) (linesAt st (setOf g addr)) = none := by
      rw [hlines]
      apply (hitIdx_none_iff _ _).mpr
      intro l hmem
      obtain ⟨j, hj⟩ := List.getElem?_of_mem hmem
      exact habs j l (by rw [hlines]; exact hj)
    have hne : linesAt st (setOf g addr) ≠ [] := by
      rw [hlines]
      intro hnil
      rw [hnil] at hlenE
      simp at hlenE
      omega
    have hbound : ∀ (j : Nat) (lj : CacheLine),
        (linesAt st (setOf g addr))[j]? = some lj → lj.valid = true →
        lj.count < INT_MAX := by
      intro j lj hj hv
      rw [hlines] at hj
      have := hvb (setOf g addr) ls j lj hls hj hv
      omega
    obtain ⟨t, ht, hcase⟩ :=
      scanLoop_target (linesAt st (setOf g addr)) 0 INT_MAX none hne hbound
    rw [hlines] at ht
    obtain ⟨l0, hl0⟩ : ∃ l0, ls[t]? = some l0 :=
      ⟨ls[t], List.getElem?_eq_getElem ht⟩
    rcases hp : scanLoop (linesAt st (setOf g addr)) 0 INT_MAX none with ⟨fst, snd⟩
    rw [hp] at hcase
    simp only [Nat.zero_add] at hcase
    have hsecond : ∀ hst1 : access_data g st addr =
        { st with
            miss_cnt := st.miss_cnt + 1
            evict_cnt := (access_data g st addr).evict_cnt
            cache := modifyIdx
              (fun ls => modifyIdx
                (fun _ => fillLine (tagOf g addr) st.counter) t ls)
              (setOf g addr) st.cache
            counter := st.counter + 1 },
        (access g (access_data g st addr) addr).2 = Outcome.Hit ∧
          (access_data g (access_data g st addr) addr).hit_cnt
            = st.hit_cnt + 1 ∧
          (access_data g (access_data g st addr) addr).miss_cnt
            = st.miss_cnt + 1 := by
      intro hst1
      have hcs1 : (access_data g st addr).cache[setOf g addr]?
          = some (modifyIdx (fun _ => fillLine (tagOf g addr) st.counter) t ls) := by
        rw [hst1]
        show (modifyIdx _ (setOf g addr) st.cache)[setOf g addr]? = _
        rw [getElem?_modifyIdx_self, hls]
        rfl
      have hpres : (modifyIdx
          (fun _ => fillLine (tagOf g addr) st.counter) t ls)[t]?
          = some (fillLine (tagOf g addr) st.counter) := by
        rw [getElem?_modifyIdx_self, hl0]
        rfl
      obtain ⟨i2, l2, _, _, _, _, hout2, hhit2, hmiss2, _, _, _⟩ :=
        hit_path_spec g (access_data g st addr) addr
          (modifyIdx (fun _ => fillLine (tagOf g addr) st.counter) t ls) hcs1
          ⟨t, fillLine (tagOf g addr) st.counter, hpres, rfl, rfl⟩
      refine ⟨hout2, ?_, ?_⟩
      · rw [hhit2, hst1]
      · rw [hmiss2, hst1]
    rcases hcase with hc | ⟨hc1, hc2⟩
    · subst hc
      have hst1 : access_data g st addr =
          { st with
              miss_cnt := st.miss_cnt + 1
              cache := modifyIdx
                (fun ls => modifyIdx
                  (fun _ => fillLine (tagOf g addr) st.counter) t ls)
                (setOf g addr) st.cache
              counter := st.counter + 1 } := by
        show (access g st addr).1 = _
        rw [access_of_free g st addr t snd hh hp]
      obtain ⟨h2a, h2b, h2c⟩ := hsecond (by rw [hst1])
      exact ⟨⟨false, by rw [access_of_free g st addr t snd hh hp]⟩, h2a, h2b, h2c⟩
    · subst hc1
      subst hc2
      have hst1 : access_data g st addr =
          { st with
              miss_cnt := st.miss_cnt + 1
              evict_cnt := st.evict_cnt + 1
              cache := modifyIdx
                (fun ls => modifyIdx
                  (fun _ => fillLine (tagOf g addr) st.counter) t ls)
                (setOf g addr) st.cache
              counter := st.counter + 1 } := by
        show (access g st addr).1 = _
        rw [access_of_evict g st addr t hh hp]
      obtain ⟨h2a, h2b, h2c⟩ := hsecond (by rw [hst1])
      exact ⟨⟨true, by rw [access_of_evict g st addr t hh hp]⟩, h2a, h2b, h2c⟩
  · intro hpresent
    obtain ⟨j, lj, hj, hjt, hjv⟩ := hpresent
    rw [hlines] at hj
    obtain ⟨i, hi⟩ :=
      hitIdx_isSome_of_mem (tagOf g addr) ls lj (List.getElem?_mem hj) hjt hjv
    obtain ⟨l, hl, hlt, hlv, -⟩ := hitIdx_spec _ ls i hi
    have hh : hitIdx (tagOf g addr) (linesAt st (setOf g addr)) = some i := by
      rw [hlines]
      exact hi
    have hst1 : access_data g st addr =
        { st with
            hit_cnt := st.hit_cnt + 1
            cache := modifyIdx
              (fun ls => modifyIdx (fun l => { l with count := st.counter }) i ls)
              (setOf g addr) st.cache
            counter := st.counter + 1 } := by
      show (access g st addr).1 = _
      rw [access_of_hit g st addr i hh]
    have hcs1 : (access_data g st addr).cache[setOf g addr]?
        = some (modifyIdx (fun l => { l with count := st.counter }) i ls) := by
      rw [hst1]
      show (modifyIdx _ (setOf g addr) st.cache)[setOf g addr]? = _
      rw [getElem?_modifyIdx_self, hls]
      rfl
    have hpres : (modifyIdx
        (fun l => { l with count := st.counter }) i ls)[i]?
        = some { l with count := st.counter } := by
      rw [getElem?_modifyIdx_self, hl]
      rfl
    obtain ⟨i2, l2, _, _, _, _, hout2, hhit2, hmiss2, _, _, _⟩ :=
      hit_path_spec g (access_data g st addr) addr
        (modifyIdx (fun l => { l with count := st.counter }) i ls) hcs1
        ⟨i, { l with count := st.counter }, hpres, hlt, hlv⟩
    refine ⟨by rw [access_of_hit g st addr i hh], hout2, ?_, ?_⟩
    · rw [hhit2, hst1]
    · rw [hmiss2, hst1]

theorem modify_two_accesses_witness :
    replayRecord ⟨1, 1, 1⟩ (init_cache ⟨1, 1, 1⟩) ⟨OpKind.modify, 0⟩
        = access_data ⟨1, 1, 1⟩
            (access_data ⟨1, 1, 1⟩ (init_cache ⟨1, 1, 1⟩) 0) 0 ∧
      ((∀ (j : Nat) (lj : CacheLine),
          (linesAt (init_cache ⟨1, 1, 1⟩) (setOf ⟨1, 1, 1⟩ 0))[j]? = some lj →
          ¬(lj.tag = tagOf ⟨1, 1, 1⟩ 0 ∧ lj.valid = true)) →
        (∃ ev, (access ⟨1, 1, 1⟩ (init_cache ⟨1, 1, 1⟩) 0).2
            = Outcome.Miss ev) ∧
          (access ⟨1, 1, 1⟩
            (access_data ⟨1, 1, 1⟩ (init_cache ⟨1, 1, 1⟩) 0) 0).2
            = Outcome.Hit ∧
          (access_data ⟨1, 1, 1⟩
            (access_data ⟨1, 1, 1⟩ (init_cache ⟨1, 1, 1⟩) 0) 0).hit_cnt
            = (init_cache ⟨1, 1, 1⟩).hit_cnt + 1 ∧
          (access_data ⟨1, 1, 1⟩
            (access_data ⟨1, 1, 1⟩ (init_cache ⟨1, 1, 1⟩) 0) 0).miss_cnt
            = (init_cache ⟨1, 1, 1⟩).miss_cnt + 1) ∧
      ((∃ (j : Nat) (lj : CacheLine),
          (linesAt (init_cache ⟨1, 1, 1⟩) (setOf ⟨1, 1, 1⟩ 0))[j]? = some lj ∧
          lj.tag = tagOf ⟨1, 1, 1⟩ 0 ∧ lj.valid = true) →
        (access ⟨1, 1, 1⟩ (init_cache ⟨1, 1, 1⟩) 0).2 = Outcome.Hit ∧
          (access ⟨1, 1, 1⟩
            (access_data ⟨1, 1, 1⟩ (init_cache ⟨1, 1, 1⟩) 0) 0).2
            = Outcome.Hit ∧
          (access_data ⟨1, 1, 1⟩
            (access_data ⟨1, 1, 1⟩ (init_cache ⟨1, 1, 1⟩) 0) 0).hit_cnt
            = (init_cache ⟨1, 1, 1⟩).hit_cnt + 2 ∧
          (access_data ⟨1, 1, 1⟩
            (access_data ⟨1, 1, 1⟩ (init_cache ⟨1, 1, 1⟩) 0) 0).miss_cnt
            = (init_cache ⟨1, 1, 1⟩).miss_cnt) :=
  modify_two_accesses ⟨1, 1, 1⟩ (init_cache ⟨1, 1, 1⟩) 0 (by decide)
    (dims_init ⟨1, 1, 1⟩) (validBound_init ⟨1, 1, 1⟩) (by decide)

end CSim
